import Mathlib

set_option autoImplicit false

/- The core rational-number operations are marked irreducible, which blocks
kernel evaluation of concrete score computations; restore default
reducibility so `decide` can evaluate them. -/
set_option allowUnsafeReducibility true
attribute [semireducible] Rat.add Rat.mul Rat.sub Rat.inv Rat.div Rat.neg Rat.normalize

/-!
Verification of the clockwork-elite date/POC extraction and consolidation
pipeline and the email thread grouper.

The TypeScript sources are shallowly embedded:
* `src/modules/date-extraction.ts` (`DateExtractor`),
* `src/modules/poc-consolidation.ts` (`POCConsolidator`),
* the email thread detection module (`detectEmailThreads` and friends).

Modelling conventions:
* A JavaScript `Date` is a day number since the Unix epoch plus the
  millisecond offset within that day; the host timezone is fixed (UTC), so
  local-time accessors and UTC accessors agree.
* JavaScript `Map` and `Set` preserve insertion order; they are modelled as
  association lists / duplicate-free lists in insertion order.
* `Array.prototype.sort` is a stable sort; it is modelled with
  `List.insertionSort`, which is stable, hence extensionally identical.
* Floating point score arithmetic is modelled over `ℚ` (every constant in
  the sources is a decimal literal and every operation stays exact in `ℚ`).
* Host calls (`Date.now()`, `new Date()`, random id generation) are made
  explicit parameters, sampled once per call as in the sources.
-/

/-- Model of a JavaScript `Date`: an absolute timestamp split into the day
number (days since the Unix epoch, in the host's fixed timezone) and the
millisecond offset inside that day. -/
structure JSDate where
  days : Int
  msInDay : Int
deriving DecidableEq

/-- `Date.prototype.getTime` / `valueOf`: milliseconds since the epoch.
JavaScript comparisons between `Date`s compare these values. -/
def JSDate.getTime (d : JSDate) : Int := d.days * 86400000 + d.msInDay

/-- date-fns `addDays`: shifts the calendar day, keeps the time of day. -/
def addDays (d : JSDate) (n : Int) : JSDate := ⟨d.days + n, d.msInDay⟩

/-- date-fns `startOfDay`: drops the time-of-day component. -/
def startOfDay (d : JSDate) : JSDate := ⟨d.days, 0⟩

/-- `Date.prototype.getDay`: day of week, 0 = Sunday. The Unix epoch day
(1970-01-01) was a Thursday, weekday 4. -/
def JSDate.getDay (d : JSDate) : Int := (d.days + 4).emod 7

/-- Indexing helper modelling a JavaScript `array.map((x, i) => ...)`
counter: pairs every element with its position. -/
def withIdx {α : Type} : Nat → List α → List (Nat × α)
  | _, [] => []
  | i, a :: t => (i, a) :: withIdx (i + 1) t

theorem withIdx_map_snd {α : Type} (i : Nat) (l : List α) :
    (withIdx i l).map Prod.snd = l := by
  induction l generalizing i with
  | nil => rfl
  | cons a t ih => simp [withIdx, ih]

theorem withIdx_length {α : Type} (i : Nat) (l : List α) :
    (withIdx i l).length = l.length := by
  induction l generalizing i with
  | nil => rfl
  | cons a t ih => simp [withIdx, ih]

/-- `ExtractedDate` from `src/modules/date-extraction.ts`. `isLastDate` is
an optional field in the source; absence is `none`. -/
structure ExtractedDate where
  date : JSDate
  formatted : String
  context : String
  isLastDate : Option Bool
deriving DecidableEq

/-- The `type` field of a `PointOfContact`. -/
inductive POCType where
  | email
  | meeting
  | call
  | pending
deriving DecidableEq

/-- `PointOfContact` from `src/modules/poc-consolidation.ts`; the optional
fields (`isLastDate`, `exchanges`, `combinedContext`) are `Option`s. -/
structure PointOfContact where
  id : String
  date : JSDate
  dateStr : String
  type : POCType
  context : String
  content : String
  selected : Bool
  isLastDate : Option Bool
  exchanges : Option Nat
  combinedContext : Option (List String)
deriving DecidableEq

/-! ### JavaScript string helpers -/

/-- ASCII case folding, as `String.prototype.toLowerCase` behaves on the
ASCII inputs this pipeline handles. -/
def jsToLowerChar (c : Char) : Char :=
  if 65 ≤ c.toNat ∧ c.toNat ≤ 90 then Char.ofNat (c.toNat + 32) else c

def jsToLowerList (cs : List Char) : List Char := cs.map jsToLowerChar

def jsToLower (s : String) : String := String.mk (jsToLowerList s.data)

/-- JavaScript whitespace (`\s`, `trim`): space, tab, LF, VT, FF, CR and
NBSP (the code points these inputs can contain). -/
def jsIsSpace (c : Char) : Bool :=
  c.toNat = 32 ∨ c.toNat = 9 ∨ c.toNat = 10 ∨ c.toNat = 11 ∨ c.toNat = 12 ∨
    c.toNat = 13 ∨ c.toNat = 160

def jsTrimList (cs : List Char) : List Char :=
  ((cs.dropWhile jsIsSpace).reverse.dropWhile jsIsSpace).reverse

/-- `String.prototype.trim`. -/
def jsTrim (s : String) : String := String.mk (jsTrimList s.data)

/-- Regex `\w`: ASCII letters, digits and underscore. -/
def isWordChar (c : Char) : Bool := c.isAlpha || c.isDigit || c = '_'

/-- Strip a case-insensitive literal from the front, returning the rest. -/
def ciStartsWith : List Char → List Char → Option (List Char)
  | [], s => some s
  | _ :: _, [] => none
  | c :: pt, d :: st =>
    if jsToLowerChar c = jsToLowerChar d then ciStartsWith pt st else none

/-- Numeric value of a digit string (JavaScript `parseInt` on the short
digit captures of the date regexes). -/
def digitsVal (cs : List Char) : Nat :=
  cs.foldl (fun acc c => acc * 10 + (c.toNat - 48)) 0

/-- JavaScript `x || y` on numbers: `y` exactly when `x` is `0`. -/
def jsOrInt (x y : Int) : Int := if x = 0 then y else x

/-! ### Civil calendar arithmetic (the host `Date` and date-fns library) -/

/-- Days since the Unix epoch of the civil date `(y, m, d)`, month 1-12
(standard `days_from_civil` with floor division). -/
def daysFromCivil (y m d : Int) : Int :=
  let y2 := if m ≤ 2 then y - 1 else y
  let era := y2.ediv 400
  let yoe := y2 - era * 400
  let mp := (m + 9).emod 12
  let doy := (153 * mp + 2).ediv 5 + d - 1
  let doe := yoe * 365 + yoe.ediv 4 - yoe.ediv 100 + doy
  era * 146097 + doe - 719468

/-- Civil date `(y, m, d)` of a day number (standard `civil_from_days`). -/
def civilFromDays (z0 : Int) : Int × Int × Int :=
  let z := z0 + 719468
  let era := z.ediv 146097
  let doe := z - era * 146097
  let yoe := (doe - doe.ediv 1460 + doe.ediv 36524 - doe.ediv 146096).ediv 365
  let y := yoe + era * 400
  let doy := doe - (365 * yoe + yoe.ediv 4 - yoe.ediv 100)
  let mp := (5 * doy + 2).ediv 153
  let d := doy - (153 * mp + 2).ediv 5 + 1
  let m := mp + (if mp < 10 then 3 else -9)
  (if m ≤ 2 then y + 1 else y, m, d)

/-- `Date.prototype.getFullYear`. -/
def JSDate.getFullYear (dt : JSDate) : Int := (civilFromDays dt.days).1

/-- `Date.prototype.getMonth` (0-indexed). -/
def JSDate.getMonth (dt : JSDate) : Int := (civilFromDays dt.days).2.1 - 1

/-- `new Date(y, monthIndex, day)`: the month index (0-based) and day
overflow or underflow exactly as in JavaScript (month arithmetic first,
then day offset from the 1st). Time is midnight. -/
def jsNewDate (y m0 d : Int) : JSDate :=
  let tm := y * 12 + m0
  ⟨daysFromCivil (tm.ediv 12) (tm.emod 12 + 1) 1 + (d - 1), 0⟩

/-- Number of days in month `m` (1-12) of year `y`. -/
def daysInMonth (y m : Int) : Int :=
  (if m = 12 then daysFromCivil (y + 1) 1 1 else daysFromCivil y (m + 1) 1)
    - daysFromCivil y m 1

/-- date-fns `addMonths`: same day-of-month clamped to the target month's
length, keeping the time of day. -/
def addMonths (dt : JSDate) (n : Int) : JSDate :=
  let c := civilFromDays dt.days
  let tm := c.1 * 12 + (c.2.1 - 1) + n
  let y2 := tm.ediv 12
  let m2 := tm.emod 12 + 1
  ⟨daysFromCivil y2 m2 (min c.2.2 (daysInMonth y2 m2)), dt.msInDay⟩

def monthLong : List String :=
  ["January", "February", "March", "April", "May", "June",
   "July", "August", "September", "October", "November", "December"]

/-- Zero-padded 4-digit year (`yyyy`), adequate for common-era years. -/
def padYear (y : Int) : String :=
  let r := Nat.repr y.toNat
  if r.length < 4 then String.mk (List.replicate (4 - r.length) '0') ++ r else r

/-- JavaScript `Array.prototype.indexOf` on an array of strings. -/
def indexOfStr (l : List String) (x : String) : Int :=
  match l.findIdx? (fun y => y = x) with
  | some i => Int.ofNat i
  | none => -1

/-- Modelled from the host environment: the JavaScript `Date` constructor
applied to a date string (the generic fallback of `parseDate`). Only the
`"<MonthName> <day>, <year>"` shape is modelled — a month name or prefix of
at least three letters (case-insensitive), a 1-2 digit day, a comma, and a
4 digit year — which is the only shape that reaches this fallback in the
inputs evaluated here; every other string is an invalid date. The result is
local midnight, as in the host. -/
def jsDateParse (s : String) : Option JSDate :=
  let cs := jsTrimList s.data
  let w := cs.takeWhile Char.isAlpha
  let lw := jsToLowerList w
  let mi := (List.range 12).findIdx? (fun i =>
    3 ≤ w.length ∧ (ciStartsWith lw (monthLong.getD i "").data).isSome)
  match mi with
  | none => none
  | some m0 =>
    let r1 := cs.drop w.length
    let sp := r1.takeWhile jsIsSpace
    if sp = [] then none else
    let r2 := r1.drop sp.length
    let ds := r2.takeWhile Char.isDigit
    if ds = [] ∨ 2 < ds.length then none else
    match r2.drop ds.length with
    | ',' :: r3 =>
      let r4 := r3.dropWhile jsIsSpace
      let ys := r4.takeWhile Char.isDigit
      if ys.length = 4 ∧ r4.drop 4 = [] then
        some (jsNewDate (Int.ofNat (digitsVal ys)) (Int.ofNat m0)
          (Int.ofNat (digitsVal ds)))
      else none
    | _ => none

/-! ### The `parseDate` regex ladder -/

namespace DateExtractor

def dayNames : List String :=
  ["sunday", "monday", "tuesday", "wednesday", "thursday", "friday", "saturday"]

def monthNames : List String :=
  ["january", "february", "march", "april", "may", "june",
   "july", "august", "september", "october", "november", "december"]

def monthAbbr : List String :=
  ["jan", "feb", "mar", "apr", "may", "jun",
   "jul", "aug", "sep", "oct", "nov", "dec"]

/-- The `today` / `yesterday` / `tomorrow` keyword block. -/
def attemptKeywords (today : JSDate) (dateStr : String) : Option JSDate :=
  let lowerStr := jsTrim (jsToLower dateStr)
  if lowerStr = "today" then some today
  else if lowerStr = "yesterday" then some (addDays today (-1))
  else if lowerStr = "tomorrow" then some (addDays today 1)
  else none

/-- The bare weekday-name block: next occurrence strictly after today, a
full week ahead when today already is that weekday. -/
def attemptDayName (today : JSDate) (dateStr : String) : Option JSDate :=
  let lowerStr := jsTrim (jsToLower dateStr)
  let dayIndex := indexOfStr dayNames lowerStr
  if 0 ≤ dayIndex then
    let todayDay := today.getDay
    let d0 := dayIndex - todayDay
    let daysToAdd := if d0 ≤ 0 then d0 + 7 else d0
    some (addDays today daysToAdd)
  else none

/-- Anchored match of `^(next|last)\s+(\w+day)$` (case-insensitive): the
keyword, at least one whitespace, then a word of length at least 4 made of
word characters ending in "day". Returns the keyword choice and the word.
The regex alternation and greedy classes admit exactly these strings. -/
def nextLastMatch (s : List Char) : Option (Bool × List Char) :=
  let tryKw : List Char → Option (List Char) := fun kw =>
    match ciStartsWith kw s with
    | some rest =>
      let rest2 := rest.dropWhile jsIsSpace
      if rest2.length = rest.length then none
      else if rest2 ≠ [] ∧ rest2.all isWordChar ∧ 4 ≤ rest2.length ∧
          (jsToLowerList rest2).drop (rest2.length - 3) = ['d', 'a', 'y'] then
        some rest2
      else none
    | none => none
  match tryKw ['n', 'e', 'x', 't'] with
  | some w => some (true, w)
  | none =>
    match tryKw ['l', 'a', 's', 't'] with
    | some w => some (false, w)
    | none => none

/-- The `next <weekday>` / `last <weekday>` block. -/
def attemptNextLast (today : JSDate) (dateStr : String) : Option JSDate :=
  match nextLastMatch dateStr.data with
  | some (isNext, w) =>
    let day := String.mk (jsToLowerList w)
    let dayIdx := indexOfStr dayNames day
    if 0 ≤ dayIdx then
      let todayDay := today.getDay
      if isNext then
        some (addDays today (jsOrInt ((dayIdx - todayDay + 7).emod 7) 7))
      else
        some (addDays today (-(jsOrInt ((todayDay - dayIdx + 7).emod 7) 7)))
    else none
  | none => none

/-- Suffix part of `(\d{1,2})(?:st|nd|rd|th)?$`: greedy two-digit first,
then one digit, each followed by an optional ordinal suffix and the end. -/
def ordSuffixOk (r : List Char) : Bool :=
  r = [] ∨ jsToLowerList r = ['s', 't'] ∨ jsToLowerList r = ['n', 'd'] ∨
    jsToLowerList r = ['r', 'd'] ∨ jsToLowerList r = ['t', 'h']

def digitsThenSuffix : List Char → Option Nat
  | [] => none
  | [a] => if a.isDigit then some (digitsVal [a]) else none
  | a :: b :: r =>
    if a.isDigit ∧ b.isDigit ∧ ordSuffixOk r then some (digitsVal [a, b])
    else if a.isDigit ∧ ordSuffixOk (b :: r) then some (digitsVal [a])
    else none

/-- Anchored match of `^(?:the\s+)?(\d{1,2})(?:st|nd|rd|th)?$`
(case-insensitive), with the regex's preference for consuming the optional
`the` prefix first. -/
def ordinalMatch (s : List Char) : Option Nat :=
  match ciStartsWith ['t', 'h', 'e'] s with
  | some rest =>
    let rest2 := rest.dropWhile jsIsSpace
    if rest2.length < rest.length then
      match digitsThenSuffix rest2 with
      | some d => some d
      | none => digitsThenSuffix s
    else digitsThenSuffix s
  | none => digitsThenSuffix s

/-- The ordinal day-of-month block (`"the 15th"`, `"3rd"`). -/
def attemptOrdinal (today : JSDate) (dateStr : String) : Option JSDate :=
  match ordinalMatch dateStr.data with
  | some day =>
    if 1 ≤ day ∧ day ≤ 31 then
      let result := jsNewDate today.getFullYear today.getMonth (Int.ofNat day)
      let result :=
        if result.getTime < today.getTime then addMonths result 1 else result
      some (startOfDay result)
    else none
  | none => none

/-- Anchored match of `^(\w+)\s+(\d{1,2})(?:st|nd|rd|th)?$`
(case-insensitive). The maximal word-character run is the only possible
first capture because `\s+` cannot match a word character. -/
def monthDayMatch (s : List Char) : Option (List Char × Nat) :=
  let w := s.takeWhile isWordChar
  if w = [] then none else
  let r1 := s.drop w.length
  let sp := r1.takeWhile jsIsSpace
  if sp = [] then none else
  match digitsThenSuffix (r1.drop sp.length) with
  | some d => some (w, d)
  | none => none

/-- The month-name block (`"January 15"`, `"Jan 30"`). -/
def attemptMonthDay (today : JSDate) (dateStr : String) : Option JSDate :=
  match monthDayMatch dateStr.data with
  | some (w, day) =>
    let ml := String.mk (jsToLowerList w)
    let mi0 := indexOfStr monthNames ml
    let monthIndex :=
      if mi0 = -1 then indexOfStr monthAbbr (String.mk ((jsToLowerList w).take 3))
      else mi0
    if 0 ≤ monthIndex ∧ 1 ≤ day ∧ day ≤ 31 then
      let result := jsNewDate today.getFullYear monthIndex (Int.ofNat day)
      let result :=
        if result.getTime < today.getTime then
          jsNewDate (today.getFullYear + 1) monthIndex (Int.ofNat day)
        else result
      some (startOfDay result)
    else none
  | none => none

/-- Anchored match of two 1-2 digit groups separated by a slash or hyphen
(the `MM/DD` pattern). The separator is not a digit, so the maximal digit
runs are the only candidate captures. -/
def monthDaySlashMatch (s : List Char) : Option (Nat × Nat) :=
  let d1 := s.takeWhile Char.isDigit
  if d1.length = 0 ∨ 2 < d1.length then none else
  match s.drop d1.length with
  | c :: rest =>
    if c = '/' ∨ c = '-' then
      let d2 := rest.takeWhile Char.isDigit
      if 1 ≤ d2.length ∧ d2.length ≤ 2 ∧ rest.drop d2.length = [] then
        some (digitsVal d1, digitsVal d2)
      else none
    else none
  | [] => none

/-- The numeric `MM/DD` / `MM-DD` block. -/
def attemptSlash (today : JSDate) (dateStr : String) : Option JSDate :=
  match monthDaySlashMatch dateStr.data with
  | some (m1, d1) =>
    let month := Int.ofNat m1 - 1
    let day := Int.ofNat d1
    if 0 ≤ month ∧ month ≤ 11 ∧ 1 ≤ day ∧ day ≤ 31 then
      let result := jsNewDate today.getFullYear month day
      let result :=
        if result.getTime < today.getTime then
          jsNewDate (today.getFullYear + 1) month day
        else result
      some (startOfDay result)
    else none
  | none => none

/-- Match of `X\s+of\s+(?:OPT\s+)?Z` at the start of `s`
(case-insensitive), with the regex's greedy optional group. -/
def phraseMatchAt (x opt z : List Char) (s : List Char) : Bool :=
  match ciStartsWith x s with
  | none => false
  | some r1 =>
    let r2 := r1.dropWhile jsIsSpace
    if r2.length = r1.length then false else
    match ciStartsWith ['o', 'f'] r2 with
    | none => false
    | some r3 =>
      let r4 := r3.dropWhile jsIsSpace
      if r4.length = r3.length then false else
      match ciStartsWith opt r4 with
      | some r5 =>
        let r6 := r5.dropWhile jsIsSpace
        if r6.length < r5.length ∧ (ciStartsWith z r6).isSome then true
        else (ciStartsWith z r4).isSome
      | none => (ciStartsWith z r4).isSome

/-- Unanchored search for the phrase anywhere in the string
(`String.prototype.match` without anchors). -/
def phraseSearch (x opt z : List Char) : List Char → Bool
  | [] => false
  | c :: t => phraseMatchAt x opt z (c :: t) || phraseSearch x opt z t

/-- The special-phrase block (`end of week` and friends). -/
def attemptPhrases (today : JSDate) (dateStr : String) : Option JSDate :=
  let cs := dateStr.data
  if phraseSearch ['e', 'n', 'd'] ['t', 'h', 'e'] ['w', 'e', 'e', 'k'] cs then
    some (addDays today (jsOrInt ((5 - today.getDay + 7).emod 7) 7))
  else if phraseSearch ['e', 'n', 'd'] ['t', 'h', 'e']
      ['m', 'o', 'n', 't', 'h'] cs then
    some (jsNewDate today.getFullYear (today.getMonth + 1) 0)
  else if phraseSearch ['b', 'e', 'g', 'i', 'n', 'n', 'i', 'n', 'g']
      ['n', 'e', 'x', 't'] ['w', 'e', 'e', 'k'] cs then
    some (addDays today (jsOrInt ((8 - today.getDay).emod 7) 7))
  else if phraseSearch ['b', 'e', 'g', 'i', 'n', 'n', 'i', 'n', 'g']
      ['n', 'e', 'x', 't'] ['m', 'o', 'n', 't', 'h'] cs then
    some (jsNewDate today.getFullYear (today.getMonth + 1) 1)
  else none

/-- The generic fallback block (`new Date(dateStr)` plus `isValid`). -/
def attemptFallback (dateStr : String) : Option JSDate :=
  match jsDateParse dateStr with
  | some parsed => some (startOfDay parsed)
  | none => none

/-- `DateExtractor.parseDate`. The source samples `new Date()` for `today`;
it is an explicit parameter. Each `attempt...` models one block of the
source ladder and returns `none` exactly when that block falls through. -/
def parseDate (today : JSDate) (dateStr : String) : Option JSDate :=
  match attemptKeywords today dateStr with
  | some d => some d
  | none =>
  match attemptDayName today dateStr with
  | some d => some d
  | none =>
  match attemptNextLast today dateStr with
  | some d => some d
  | none =>
  match attemptOrdinal today dateStr with
  | some d => some d
  | none =>
  match attemptMonthDay today dateStr with
  | some d => some d
  | none =>
  match attemptSlash today dateStr with
  | some d => some d
  | none =>
  match attemptPhrases today dateStr with
  | some d => some d
  | none => attemptFallback dateStr

/-! ### A tiny backtracking regex engine for the header patterns

The five `HEADER_PATTERNS` and the override marker pattern are
concatenations of case-insensitive literals, two-way literal alternations
and greedy or lazy character-class repetitions with bounds, plus exactly
one capture group. The matcher below enumerates consumptions in exactly
the JavaScript backtracking priority order (alternatives left to right,
greedy classes longest first, lazy classes shortest first), so its first
success is the JavaScript match. -/

inductive RTok where
  | lit : List Char → RTok
  | alts : List (List Char) → RTok
  | cls : (Char → Bool) → Nat → Option Nat → Bool → RTok

/-- Longest permitted run of class characters at the front of `s`. -/
def boundRun (p : Char → Bool) (s : List Char) (mx : Option Nat) : Nat :=
  match mx with
  | none => (s.takeWhile p).length
  | some m => min (s.takeWhile p).length m

def firstSome {α β : Type} : List α → (α → Option β) → Option β
  | [], _ => none
  | a :: t, f =>
    match f a with
    | some b => some b
    | none => firstSome t f

/-- Backtracking matcher in continuation-passing style: tries every way the
token sequence can consume a prefix of `s`, in regex priority order, and
hands the remainder to the continuation. -/
def matchToks {β : Type} : List RTok → List Char → (List Char → Option β) → Option β
  | [], s, k => k s
  | RTok.lit l :: rest, s, k =>
    match ciStartsWith l s with
    | some s2 => matchToks rest s2 k
    | none => none
  | RTok.alts ls :: rest, s, k =>
    firstSome ls (fun l =>
      match ciStartsWith l s with
      | some s2 => matchToks rest s2 k
      | none => none)
  | RTok.cls p mn mx lz :: rest, s, k =>
    let hi := boundRun p s mx
    if hi < mn then none
    else
      firstSome
        (if lz then (List.range (hi + 1 - mn)).map (fun i => mn + i)
         else (List.range (hi + 1 - mn)).map (fun i => hi - i))
        (fun n => matchToks rest (s.drop n) k)

/-- A pattern with one capture group: tokens before, inside and after it. -/
structure RPat where
  pre : List RTok
  cap : List RTok
  post : List RTok

/-- Anchored match attempt at the start of `s`; on success returns the
captured substring and the remainder after the whole match. -/
def matchPatAt (pat : RPat) (s : List Char) : Option (List Char × List Char) :=
  matchToks pat.pre s (fun s1 =>
    matchToks pat.cap s1 (fun s2 =>
      matchToks pat.post s2 (fun s3 =>
        some (s1.take (s1.length - s2.length), s3))))

/-- Leftmost match (`String.prototype.match` without `g`). -/
def searchPat (pat : RPat) : List Char → Option (List Char × List Char)
  | [] => matchPatAt pat []
  | c :: t =>
    match matchPatAt pat (c :: t) with
    | some r => some r
    | none => searchPat pat t

/-- All matches (`matchAll`), continuing after each match's end. The fuel
only bounds the iteration count; every pattern used here consumes at least
one character per match, so the fuel is never exhausted. -/
def matchAllAux (pat : RPat) : Nat → List Char → List (List Char)
  | 0, _ => []
  | Nat.succ fuel, s =>
    match searchPat pat s with
    | none => []
    | some (cap, rest) => cap :: matchAllAux pat fuel rest

def matchAllCaps (pat : RPat) (s : List Char) : List (List Char) :=
  matchAllAux pat (s.length + 1) s

def wordTok : RTok := RTok.cls isWordChar 1 none false
def spacePlus : RTok := RTok.cls jsIsSpace 1 none false
def spaceStar : RTok := RTok.cls jsIsSpace 0 none false
def digit12 : RTok := RTok.cls Char.isDigit 1 (some 2) false
def digit2 : RTok := RTok.cls Char.isDigit 2 (some 2) false
def digit4 : RTok := RTok.cls Char.isDigit 4 (some 4) false
def slashDash : RTok := RTok.cls (fun c => c = '/' ∨ c = '-') 1 (some 1) false
def dotLazy : RTok := RTok.cls (fun c => ¬ (c.toNat = 10 ∨ c.toNat = 13)) 0 none true
def sentDate : RTok := RTok.alts ["sent".data, "date".data]
def colonTok : RTok := RTok.lit ":".data
def commaTok : RTok := RTok.lit ",".data

/-- The five header regexes of `DateExtractor.HEADER_PATTERNS`, token for
token (all are `(?:Sent|Date):\s*` plus one captured date shape; the fifth
has an `(?:On|From)` lead-in with a lazy gap). -/
def HEADER_PATTERNS : List RPat :=
  [⟨[sentDate, colonTok, spaceStar],
    [wordTok, commaTok, spacePlus, wordTok, spacePlus, digit12, commaTok,
      spacePlus, digit4], []⟩,
   ⟨[sentDate, colonTok, spaceStar],
    [wordTok, spacePlus, digit12, commaTok, spacePlus, digit4], []⟩,
   ⟨[sentDate, colonTok, spaceStar],
    [wordTok, commaTok, spacePlus, digit12, slashDash, digit12, slashDash,
      digit4], []⟩,
   ⟨[sentDate, colonTok, spaceStar],
    [wordTok, commaTok, spacePlus, wordTok, spacePlus, digit12, commaTok,
      spacePlus, digit4, spacePlus, digit12, colonTok, digit2], []⟩,
   ⟨[RTok.alts ["on".data, "from".data], dotLazy, sentDate, colonTok, spaceStar],
    [wordTok, commaTok, spacePlus, wordTok, spacePlus, digit12, commaTok,
      spacePlus, digit4], []⟩]

/-- The manual-override marker regex: a case-insensitive bracketed label,
optional whitespace, a captured run of non-bracket characters, and a
mandatory closing bracket. -/
def lastDatePat : RPat :=
  ⟨[RTok.lit "[last date in response:".data, spaceStar],
   [RTok.cls (fun c => ¬ c = ']') 1 none false],
   [RTok.lit "]".data]⟩

/-- `DateExtractor.formatDate`: date-fns `format(date, 'MMMM d, yyyy')`. -/
def formatDate (d : JSDate) : String :=
  let c := civilFromDays d.days
  monthLong.getD (c.2.1 - 1).toNat "" ++ " " ++ Nat.repr c.2.2.toNat ++ ", " ++
    padYear c.1

/-- `DateExtractor.extractDates`: the override marker is matched first and
pushed without touching the `uniqueDates` set; the header patterns are then
scanned in order, deduplicating only among themselves by canonical
formatted date. -/
def extractDates (today : JSDate) (content : String) : List ExtractedDate :=
  let c := content.data
  let overridePart : List ExtractedDate :=
    match searchPat lastDatePat c with
    | some (cap, _) =>
      let dateStr := jsTrim (String.mk cap)
      match parseDate today dateStr with
      | some parsed =>
        [⟨parsed, formatDate parsed, "Last response: " ++ dateStr, some true⟩]
      | none => []
    | none => []
  let step := fun (st : List String × List ExtractedDate) (pat : RPat) =>
    (matchAllCaps pat c).foldl (fun (st2 : List String × List ExtractedDate) cap =>
      let dateStr := String.mk cap
      match parseDate today dateStr with
      | some parsed =>
        let dateKey := formatDate parsed
        if st2.1.contains dateKey then st2
        else (st2.1 ++ [dateKey],
              st2.2 ++ [⟨parsed, dateKey, "Email header: " ++ dateStr, none⟩])
      | none => st2) st
  (HEADER_PATTERNS.foldl step ([], overridePart)).2

/-- Case-sensitive substring test (`String.prototype.includes`). -/
def listIncludes (needle : List Char) : List Char → Bool
  | [] => needle.isPrefixOf []
  | c :: t => needle.isPrefixOf (c :: t) || listIncludes needle t

/-- `DateExtractor.hasLastDateMarker`: a case-sensitive `includes` test for
the (unclosed) marker prefix. -/
def hasLastDateMarker (content : String) : Bool :=
  listIncludes "[Last date in response:".data content.data

theorem getDay_nonneg (d : JSDate) : 0 ≤ d.getDay :=
  Int.emod_nonneg _ (by norm_num)

theorem getDay_lt_seven (d : JSDate) : d.getDay < 7 :=
  Int.emod_lt_of_pos _ (by norm_num)

theorem addDays_getTime (d : JSDate) (n : Int) :
    (addDays d n).getTime = d.getTime + n * 86400000 := by
  unfold addDays JSDate.getTime
  ring

/-- Each block of the ladder either normalizes to start of day or keeps the
reference timestamp's time of day, block by block. -/
theorem attemptKeywords_ms (today : JSDate) (s : String) (d : JSDate)
    (h : attemptKeywords today s = some d) : d.msInDay = today.msInDay := by
  unfold attemptKeywords at h
  dsimp only at h
  split at h
  · cases h; rfl
  · split at h
    · cases h; rfl
    · split at h
      · cases h; rfl
      · cases h

theorem attemptDayName_ms (today : JSDate) (s : String) (d : JSDate)
    (h : attemptDayName today s = some d) : d.msInDay = today.msInDay := by
  unfold attemptDayName at h
  dsimp only at h
  split at h
  · cases h; rfl
  · cases h

theorem attemptNextLast_ms (today : JSDate) (s : String) (d : JSDate)
    (h : attemptNextLast today s = some d) : d.msInDay = today.msInDay := by
  unfold attemptNextLast at h
  dsimp only at h
  split at h
  · split at h
    · split at h
      · cases h; rfl
      · cases h; rfl
    · cases h
  · cases h

/-- A guarded start-of-day result always has a zero time component. -/
theorem ms_of_ite_startOfDay {C : Prop} [Decidable C] (x : JSDate) (d : JSDate)
    (h : (if C then some (startOfDay x) else none) = some d) : d.msInDay = 0 := by
  split at h
  · cases h; rfl
  · cases h

theorem attemptOrdinal_ms (today : JSDate) (s : String) (d : JSDate)
    (h : attemptOrdinal today s = some d) : d.msInDay = 0 := by
  unfold attemptOrdinal at h
  rcases hm : ordinalMatch s.data with _ | day <;> rw [hm] at h
  · cases h
  · exact ms_of_ite_startOfDay _ _ h

theorem attemptMonthDay_ms (today : JSDate) (s : String) (d : JSDate)
    (h : attemptMonthDay today s = some d) : d.msInDay = 0 := by
  unfold attemptMonthDay at h
  rcases hm : monthDayMatch s.data with _ | ⟨w, day⟩ <;> rw [hm] at h
  · cases h
  · exact ms_of_ite_startOfDay _ _ h

theorem attemptSlash_ms (today : JSDate) (s : String) (d : JSDate)
    (h : attemptSlash today s = some d) : d.msInDay = 0 := by
  unfold attemptSlash at h
  rcases hm : monthDaySlashMatch s.data with _ | ⟨m1, d1⟩ <;> rw [hm] at h
  · cases h
  · exact ms_of_ite_startOfDay _ _ h

theorem attemptPhrases_ms (today : JSDate) (s : String) (d : JSDate)
    (h : attemptPhrases today s = some d) :
    d.msInDay = 0 ∨ d.msInDay = today.msInDay := by
  unfold attemptPhrases at h
  try dsimp only at h
  split at h
  · cases h; exact Or.inr rfl
  · split at h
    · cases h; exact Or.inl rfl
    · split at h
      · cases h; exact Or.inr rfl
      · split at h
        · cases h; exact Or.inl rfl
        · cases h

theorem attemptFallback_ms (s : String) (d : JSDate)
    (h : attemptFallback s = some d) : d.msInDay = 0 := by
  unfold attemptFallback at h
  try dsimp only at h
  split at h
  · cases h; rfl
  · cases h

/-- C5 (amended): every successful parse yields either a start-of-day date
or a date carrying exactly the reference date's time of day. The keyword,
weekday and week-phrase blocks keep the time; all other blocks normalize. -/
theorem parseDate_time_component (today : JSDate) (s : String) (d : JSDate)
    (h : parseDate today s = some d) :
    d.msInDay = 0 ∨ d.msInDay = today.msInDay := by
  unfold parseDate at h
  try dsimp only at h
  split at h
  · rename_i heq
    cases h
    exact Or.inr (attemptKeywords_ms today s _ heq)
  · split at h
    · rename_i heq
      cases h
      exact Or.inr (attemptDayName_ms today s _ heq)
    · split at h
      · rename_i heq
        cases h
        exact Or.inr (attemptNextLast_ms today s _ heq)
      · split at h
        · rename_i heq
          cases h
          exact Or.inl (attemptOrdinal_ms today s _ heq)
        · split at h
          · rename_i heq
            cases h
            exact Or.inl (attemptMonthDay_ms today s _ heq)
          · split at h
            · rename_i heq
              cases h
              exact Or.inl (attemptSlash_ms today s _ heq)
            · split at h
              · rename_i heq
                cases h
                exact attemptPhrases_ms today s _ heq
              · exact Or.inl (attemptFallback_ms s _ h)

/-- Witness for `parseDate_time_component` at a concrete input. -/
theorem parseDate_time_component_witness :
    parseDate ⟨20104, 5⟩ "tomorrow" = some ⟨20105, 5⟩ ∧
    ((⟨20105, 5⟩ : JSDate).msInDay = 0 ∨
      (⟨20105, 5⟩ : JSDate).msInDay = (⟨20104, 5⟩ : JSDate).msInDay) :=
  ⟨by decide, parseDate_time_component ⟨20104, 5⟩ "tomorrow" ⟨20105, 5⟩ (by decide)⟩

/-- C5 counterexample: parsing `"today"` at noon succeeds but returns the
reference timestamp unchanged, which is not a start-of-day date. -/
theorem parseDate_today_keeps_time :
    parseDate ⟨20104, 43200000⟩ "today" = some ⟨20104, 43200000⟩ ∧
    (⟨20104, 43200000⟩ : JSDate) ≠ startOfDay ⟨20104, 43200000⟩ := by
  constructor
  · decide
  · decide

/-- Reduction of the ladder to the weekday block when the keyword block
falls through and the weekday block fires. -/
theorem parseDate_eq_dayName (today : JSDate) (w : String) (r : JSDate)
    (hkw : attemptKeywords today w = none)
    (hdn : attemptDayName today w = some r) :
    parseDate today w = some r := by
  unfold parseDate
  rw [hkw, hdn]

theorem attemptDayName_bound (today : JSDate) (w : String) (idx : Int)
    (hidx : indexOfStr dayNames (jsTrim (jsToLower w)) = idx)
    (h0 : 0 ≤ idx) (h6 : idx ≤ 6) :
    ∃ d, attemptDayName today w = some d ∧
      today.getTime < d.getTime ∧ d.getTime ≤ today.getTime + 7 * 86400000 := by
  have hd0 := getDay_nonneg today
  have hd7 := getDay_lt_seven today
  refine ⟨addDays today
      (if idx - today.getDay ≤ 0 then idx - today.getDay + 7 else idx - today.getDay),
    ?_, ?_, ?_⟩
  · simp only [attemptDayName, hidx]
    rw [if_pos h0]
  · rw [addDays_getTime]
    by_cases hc : idx - today.getDay ≤ 0
    · rw [if_pos hc]; omega
    · rw [if_neg hc]; omega
  · rw [addDays_getTime]
    by_cases hc : idx - today.getDay ≤ 0
    · rw [if_pos hc]; omega
    · rw [if_neg hc]; omega

/-- C3 (amended): parsing a bare weekday name always yields a date strictly
after the reference date and at most 7 days later (7 exactly when the
reference date already falls on that weekday). -/
theorem parseDate_weekday_range (today : JSDate) (w : String)
    (hw : w ∈ dayNames) :
    ∃ d, parseDate today w = some d ∧
      today.getTime < d.getTime ∧ d.getTime ≤ today.getTime + 7 * 86400000 := by
  have hw9 : w = "sunday" ∨ w = "monday" ∨ w = "tuesday" ∨ w = "wednesday" ∨
      w = "thursday" ∨ w = "friday" ∨ w = "saturday" := by
    simpa [dayNames] using hw
  rcases hw9 with rfl | rfl | rfl | rfl | rfl | rfl | rfl
  · obtain ⟨d, hd, h1, h2⟩ := attemptDayName_bound today "sunday" _ rfl
      (by decide) (by decide)
    exact ⟨d, parseDate_eq_dayName today "sunday" d rfl hd, h1, h2⟩
  · obtain ⟨d, hd, h1, h2⟩ := attemptDayName_bound today "monday" _ rfl
      (by decide) (by decide)
    exact ⟨d, parseDate_eq_dayName today "monday" d rfl hd, h1, h2⟩
  · obtain ⟨d, hd, h1, h2⟩ := attemptDayName_bound today "tuesday" _ rfl
      (by decide) (by decide)
    exact ⟨d, parseDate_eq_dayName today "tuesday" d rfl hd, h1, h2⟩
  · obtain ⟨d, hd, h1, h2⟩ := attemptDayName_bound today "wednesday" _ rfl
      (by decide) (by decide)
    exact ⟨d, parseDate_eq_dayName today "wednesday" d rfl hd, h1, h2⟩
  · obtain ⟨d, hd, h1, h2⟩ := attemptDayName_bound today "thursday" _ rfl
      (by decide) (by decide)
    exact ⟨d, parseDate_eq_dayName today "thursday" d rfl hd, h1, h2⟩
  · obtain ⟨d, hd, h1, h2⟩ := attemptDayName_bound today "friday" _ rfl
      (by decide) (by decide)
    exact ⟨d, parseDate_eq_dayName today "friday" d rfl hd, h1, h2⟩
  · obtain ⟨d, hd, h1, h2⟩ := attemptDayName_bound today "saturday" _ rfl
      (by decide) (by decide)
    exact ⟨d, parseDate_eq_dayName today "saturday" d rfl hd, h1, h2⟩

/-- Witness for `parseDate_weekday_range` at a concrete reference date. -/
theorem parseDate_weekday_range_witness :
    "monday" ∈ dayNames ∧
    ∃ d, parseDate ⟨4, 0⟩ "monday" = some d ∧
      (⟨4, 0⟩ : JSDate).getTime < d.getTime ∧
      d.getTime ≤ (⟨4, 0⟩ : JSDate).getTime + 7 * 86400000 :=
  ⟨by decide, parseDate_weekday_range ⟨4, 0⟩ "monday" (by decide)⟩

/-- C3 counterexample: day 4 of the epoch (1970-01-05) is a Monday, and
parsing `"monday"` there yields a date a full 7 days later — more than the
claimed 6-day maximum. -/
theorem parseDate_weekday_seven_days :
    parseDate ⟨4, 0⟩ "monday" = some ⟨11, 0⟩ ∧
    ¬ ((⟨11, 0⟩ : JSDate).getTime ≤ (⟨4, 0⟩ : JSDate).getTime + 6 * 86400000) := by
  constructor
  · decide
  · decide

/-- C9: the override recognizers disagree. `extractDates` matches the
marker case-insensitively and needs a closing bracket; `hasLastDateMarker`
is a case-sensitive substring test without one. A lower-case closed marker
is extracted but not reported by `hasLastDateMarker`; an upper-case
unclosed marker is reported but yields no override entry. -/
theorem marker_recognition_divergence :
    ((extractDates ⟨20104, 0⟩ "[last date in response: tomorrow]").filter
        (fun d => d.isLastDate = some true)).length = 1 ∧
    hasLastDateMarker "[last date in response: tomorrow]" = false ∧
    hasLastDateMarker "[Last date in response: tomorrow" = true ∧
    ((extractDates ⟨20104, 0⟩ "[Last date in response: tomorrow").filter
        (fun d => d.isLastDate = some true)).length = 0 := by
  refine ⟨?_, ?_, ?_, ?_⟩ <;> decide

end DateExtractor

namespace POCConsolidator

/-- One iteration of the `pocs.forEach` loop in
`POCConsolidator.consolidate`: the `pocsByDate` map (insertion-ordered
association list) either gains a fresh entry seeded with `exchanges = 1`,
or the existing same-day entry is updated in place. -/
def consolidateStep (acc : List (String × PointOfContact)) (poc : PointOfContact) :
    List (String × PointOfContact) :=
  if acc.any (fun kv => kv.1 = poc.dateStr) then
    acc.map (fun kv =>
      if kv.1 = poc.dateStr then
        (kv.1,
          { kv.2 with
            exchanges := some (kv.2.exchanges.getD 1 + 1)
            combinedContext := some (kv.2.combinedContext.getD [] ++ [poc.context])
            type := if poc.type ≠ POCType.email ∧ kv.2.type = POCType.email
                    then poc.type else kv.2.type })
      else kv)
  else
    acc ++ [(poc.dateStr,
      { poc with exchanges := some 1, combinedContext := some [poc.context] })]

/-- The rewrite applied when converting the `pocsByDate` map back to an
array: records with more than one exchange get a synthesized context. The
source renders a missing `combinedContext` as the string `"undefined"`
(JavaScript template-literal semantics for `undefined`). -/
def rewriteContext (poc : PointOfContact) : PointOfContact :=
  { poc with
    context :=
      match poc.exchanges with
      | some n =>
        if 1 < n then
          Nat.repr n ++ " exchanges on this day: " ++
            (match poc.combinedContext with
             | some l => String.intercalate "; " l
             | none => "undefined")
        else poc.context
      | none => poc.context }

/-- The draft `PointOfContact` built from one `ExtractedDate` (the
`dates.map` at the top of the ready path). -/
def mkDraft (content : String) (now : JSDate) (p : Nat × ExtractedDate) :
    PointOfContact :=
  { id := toString now.getTime ++ "-" ++ Nat.repr p.1
    date := p.2.date
    dateStr := p.2.formatted
    type := POCType.email
    context := p.2.context
    content := content
    selected := true
    isLastDate := some (p.2.isLastDate.getD false)
    exchanges := none
    combinedContext := none }

/-- `POCConsolidator.consolidate` from `src/modules/poc-consolidation.ts`.
`now` models the single sampling of `Date.now()` / `new Date()` used for
ids and the pending record's date. -/
def consolidate (dates : List ExtractedDate) (content : String) (now : JSDate)
    (hasLastDate : Bool) : List PointOfContact :=
  if !hasLastDate then
    [{ id := toString now.getTime
       date := now
       dateStr := "Waiting for last date..."
       type := POCType.pending
       context := "Please wait for the last date prompt"
       content := content
       selected := false
       isLastDate := none
       exchanges := none
       combinedContext := none }]
  else
    let pocs := (withIdx 0 dates).map (mkDraft content now)
    let table := pocs.foldl consolidateStep []
    let consolidated := (table.map Prod.snd).map rewriteContext
    List.insertionSort (fun a b => a.date.getTime ≤ b.date.getTime) consolidated

/-- The exchange count a record contributes (0 when the field is unset). -/
def exchOf (kv : String × PointOfContact) : Nat := kv.2.exchanges.getD 0

/-- In-place updates of the `pocsByDate` map keep the key sequence. -/
theorem keys_consolidateStep_update (acc : List (String × PointOfContact))
    (poc : PointOfContact) (h : (acc.any (fun kv => kv.1 = poc.dateStr)) = true) :
    (consolidateStep acc poc).map Prod.fst = acc.map Prod.fst := by
  simp only [consolidateStep, h, if_true, List.map_map]
  apply List.map_congr_left
  intro kv _
  by_cases hk : kv.1 = poc.dateStr <;> simp [hk]

/-- Inserting a fresh day appends its key to the key sequence. -/
theorem keys_consolidateStep_new (acc : List (String × PointOfContact))
    (poc : PointOfContact) (h : (acc.any (fun kv => kv.1 = poc.dateStr)) = false) :
    (consolidateStep acc poc).map Prod.fst = acc.map Prod.fst ++ [poc.dateStr] := by
  simp [consolidateStep, h]

/-- Every map entry keeps `exchanges` set and its `dateStr` equal to its key. -/
theorem consolidateStep_entries (acc : List (String × PointOfContact))
    (poc : PointOfContact)
    (h : ∀ kv ∈ acc, (kv.2 : PointOfContact).exchanges.isSome ∧ kv.2.dateStr = kv.1) :
    ∀ kv ∈ consolidateStep acc poc, kv.2.exchanges.isSome ∧ kv.2.dateStr = kv.1 := by
  intro kv hkv
  unfold consolidateStep at hkv
  by_cases hmem : (acc.any (fun kv => kv.1 = poc.dateStr)) = true
  · rw [if_pos hmem] at hkv
    rcases List.mem_map.1 hkv with ⟨kv0, hkv0, rfl⟩
    by_cases hk : kv0.1 = poc.dateStr
    · rw [if_pos hk]
      exact ⟨rfl, (h kv0 hkv0).2⟩
    · rw [if_neg hk]
      exact h kv0 hkv0
  · rw [if_neg hmem] at hkv
    rcases List.mem_append.1 hkv with hkv | hkv
    · exact h kv hkv
    · rcases List.mem_singleton.1 hkv with rfl
      exact ⟨rfl, rfl⟩

/-- Updating the existing same-day entry bumps the exchange sum by one. -/
theorem sum_map_update (poc : PointOfContact) :
    ∀ acc : List (String × PointOfContact),
    (acc.map Prod.fst).Nodup →
    (∀ kv ∈ acc, (kv.2 : PointOfContact).exchanges.isSome) →
    (acc.any (fun kv => kv.1 = poc.dateStr)) = true →
    ((acc.map (fun kv =>
      if kv.1 = poc.dateStr then
        (kv.1,
          { kv.2 with
            exchanges := some (kv.2.exchanges.getD 1 + 1)
            combinedContext := some (kv.2.combinedContext.getD [] ++ [poc.context])
            type := if poc.type ≠ POCType.email ∧ kv.2.type = POCType.email
                    then poc.type else kv.2.type })
      else kv)).map exchOf).sum = ((acc.map exchOf).sum) + 1 := by
  intro acc
  induction acc with
  | nil => simp
  | cons hd tl ih =>
    intro hnd hsome hany
    have hnd' := List.nodup_cons.1 (show (hd.1 :: tl.map Prod.fst).Nodup from hnd)
    by_cases hk : hd.1 = poc.dateStr
    · have htl : ∀ kv ∈ tl, ¬ ((kv : String × PointOfContact).1 = poc.dateStr) := by
        intro kv hkv hcon
        exact hnd'.1 (by
          rw [hk, ← hcon]
          exact List.mem_map.2 ⟨kv, hkv, rfl⟩)
      have htleq : (tl.map (fun kv =>
          if kv.1 = poc.dateStr then
            (kv.1,
              { kv.2 with
                exchanges := some (kv.2.exchanges.getD 1 + 1)
                combinedContext := some (kv.2.combinedContext.getD [] ++ [poc.context])
                type := if poc.type ≠ POCType.email ∧ kv.2.type = POCType.email
                        then poc.type else kv.2.type })
          else kv)) = tl := by
        have h' : ∀ kv ∈ tl, (fun kv : String × PointOfContact =>
            if kv.1 = poc.dateStr then
              (kv.1,
                { kv.2 with
                  exchanges := some (kv.2.exchanges.getD 1 + 1)
                  combinedContext := some (kv.2.combinedContext.getD [] ++ [poc.context])
                  type := if poc.type ≠ POCType.email ∧ kv.2.type = POCType.email
                          then poc.type else kv.2.type })
            else kv) kv = id kv := by
          intro kv hkv
          simp [htl kv hkv]
        rw [List.map_congr_left h', List.map_id]
      obtain ⟨k0, hk0⟩ := Option.isSome_iff_exists.1 (hsome hd (by simp))
      simp only [List.map_cons, if_pos hk, htleq, List.sum_cons, exchOf, hk0,
        Option.getD_some]
      omega
    · have hany' : (tl.any (fun kv => kv.1 = poc.dateStr)) = true := by
        simp only [List.any_cons] at hany
        rcases Bool.or_eq_true_iff.1 hany with h' | h'
        · exact absurd (of_decide_eq_true h') hk
        · exact h'
      have := ih hnd'.2 (fun kv hkv => hsome kv (by simp [hkv])) hany'
      simp only [List.map_cons, if_neg hk, List.sum_cons, this]
      omega

/-- Invariant of the whole `pocs.forEach` fold: distinct keys, key-field
agreement, and the exchange counts summing to the number of processed
drafts. -/
theorem consolidate_fold_inv (pocs : List PointOfContact) :
    ∀ acc : List (String × PointOfContact),
    (acc.map Prod.fst).Nodup →
    (∀ kv ∈ acc, (kv.2 : PointOfContact).exchanges.isSome ∧ kv.2.dateStr = kv.1) →
    ((pocs.foldl consolidateStep acc).map Prod.fst).Nodup ∧
    (∀ kv ∈ pocs.foldl consolidateStep acc,
        kv.2.exchanges.isSome ∧ kv.2.dateStr = kv.1) ∧
    ((pocs.foldl consolidateStep acc).map exchOf).sum
      = (acc.map exchOf).sum + pocs.length := by
  induction pocs with
  | nil =>
    intro acc h1 h2
    exact ⟨h1, h2, by simp⟩
  | cons p rest ih =>
    intro acc h1 h2
    have hent := consolidateStep_entries acc p h2
    have hnodup : ((consolidateStep acc p).map Prod.fst).Nodup := by
      by_cases hmem : (acc.any (fun kv => kv.1 = p.dateStr)) = true
      · rw [keys_consolidateStep_update acc p hmem]; exact h1
      · have hmem' : (acc.any (fun kv => kv.1 = p.dateStr)) = false :=
          Bool.eq_false_iff.2 hmem
        rw [keys_consolidateStep_new acc p hmem']
        have hnotin : p.dateStr ∉ acc.map Prod.fst := by
          intro hcon
          rcases List.mem_map.1 hcon with ⟨kv, hkv, hkeq⟩
          exact hmem (List.any_eq_true.2 ⟨kv, hkv, decide_eq_true hkeq⟩)
        simp [List.nodup_append, h1, hnotin]
    have hsum : ((consolidateStep acc p).map exchOf).sum = (acc.map exchOf).sum + 1 := by
      unfold consolidateStep
      by_cases hmem : (acc.any (fun kv => kv.1 = p.dateStr)) = true
      · rw [if_pos hmem]
        exact sum_map_update p acc h1 (fun kv hkv => (h2 kv hkv).1) hmem
      · rw [if_neg hmem]
        simp [exchOf]
    obtain ⟨a, b, c⟩ := ih (consolidateStep acc p) hnodup hent
    refine ⟨by simpa using a, by simpa using b, ?_⟩
    simp only [List.foldl_cons]
    rw [c, hsum]
    simp [Nat.add_comm, Nat.add_assoc, Nat.add_left_comm]

/-- C1: with the override present, no two consolidated records share a
`dateStr`, and the `exchanges` counts sum to the number of input dates. -/
theorem consolidate_ready_nodup_sum (dates : List ExtractedDate) (content : String)
    (now : JSDate) :
    ((consolidate dates content now true).map (fun p => p.dateStr)).Nodup ∧
    ((consolidate dates content now true).map (fun p => p.exchanges.getD 0)).sum
      = dates.length := by
  set pocs := (withIdx 0 dates).map (mkDraft content now) with hpocs
  have hlen : pocs.length = dates.length := by
    rw [hpocs, List.length_map, withIdx_length]
  obtain ⟨hnd, hent, hsum⟩ := consolidate_fold_inv pocs [] (by simp) (by simp)
  set table := pocs.foldl consolidateStep [] with htable
  have hout : consolidate dates content now true
      = List.insertionSort (fun a b => a.date.getTime ≤ b.date.getTime)
          ((table.map Prod.snd).map rewriteContext) := by
    simp [consolidate, hpocs, htable]
  have hperm := List.perm_insertionSort
      (fun (a : PointOfContact) b => a.date.getTime ≤ b.date.getTime)
      ((table.map Prod.snd).map rewriteContext)
  have hdateStr : ((table.map Prod.snd).map rewriteContext).map (fun p => p.dateStr)
      = table.map Prod.fst := by
    simp only [List.map_map]
    apply List.map_congr_left
    intro kv hkv
    simp only [Function.comp]
    show (rewriteContext kv.2).dateStr = kv.1
    have : (rewriteContext kv.2).dateStr = kv.2.dateStr := rfl
    rw [this, (hent kv hkv).2]
  have hexch : ((table.map Prod.snd).map rewriteContext).map (fun p => p.exchanges.getD 0)
      = table.map exchOf := by
    simp only [List.map_map]
    apply List.map_congr_left
    intro kv _
    rfl
  constructor
  · rw [hout]
    have := (hperm.map (fun p => p.dateStr)).nodup_iff
    rw [this, hdateStr]
    exact hnd
  · rw [hout]
    rw [(hperm.map (fun p => p.exchanges.getD 0)).sum_eq, hexch]
    rw [hsum]
    simpa using hlen

/-- The same-day group of a draft list for a given key: all drafts whose
`dateStr` equals the key, in discovery order. -/
def groupOf (processed : List PointOfContact) (k : String) : List PointOfContact :=
  processed.filter (fun q => q.dateStr = k)

theorem groupOf_append_one (processed : List PointOfContact) (p : PointOfContact)
    (k : String) :
    groupOf (processed ++ [p]) k
      = groupOf processed k ++ (if p.dateStr = k then [p] else []) := by
  unfold groupOf
  rw [List.filter_append]
  by_cases h : p.dateStr = k
  · simp [h]
  · simp [h]

/-- Key membership is untouched by the in-place same-day update. -/
theorem any_key_update (acc : List (String × PointOfContact)) (p : PointOfContact)
    (k : String) :
    ((acc.map (fun kv =>
      if kv.1 = p.dateStr then
        (kv.1,
          { kv.2 with
            exchanges := some (kv.2.exchanges.getD 1 + 1)
            combinedContext := some (kv.2.combinedContext.getD [] ++ [p.context])
            type := if p.type ≠ POCType.email ∧ kv.2.type = POCType.email
                    then p.type else kv.2.type })
      else kv)).any (fun kv => kv.1 = k)) = (acc.any (fun kv => kv.1 = k)) := by
  induction acc with
  | nil => rfl
  | cons hd tl ih =>
    by_cases hq : hd.1 = p.dateStr
    · simp only [List.map_cons, if_pos hq, List.any_cons, ih]
    · simp only [List.map_cons, if_neg hq, List.any_cons, ih]

/-- Full characterization of every `pocsByDate` entry after the fold: its
fields aggregate exactly the same-day group of the processed drafts. -/
theorem consolidate_fold_group (pocs : List PointOfContact) :
    ∀ (processed : List PointOfContact) (acc : List (String × PointOfContact)),
    (∀ k e, (k, e) ∈ acc →
        e.dateStr = k ∧
        e.exchanges = some (groupOf processed k).length ∧
        e.combinedContext = some ((groupOf processed k).map (fun q => q.context)) ∧
        ∃ q0 tl, groupOf processed k = q0 :: tl ∧ e.context = q0.context) →
    (∀ k, (acc.any (fun kv => kv.1 = k)) = false → groupOf processed k = []) →
    ∀ k e, (k, e) ∈ pocs.foldl consolidateStep acc →
        e.dateStr = k ∧
        e.exchanges = some (groupOf (processed ++ pocs) k).length ∧
        e.combinedContext = some ((groupOf (processed ++ pocs) k).map (fun q => q.context)) ∧
        ∃ q0 tl, groupOf (processed ++ pocs) k = q0 :: tl ∧ e.context = q0.context := by
  induction pocs with
  | nil =>
    intro processed acc h1 _ k e hke
    simpa using h1 k e hke
  | cons p rest ih =>
    intro processed acc h1 h2
    have hsplit : processed ++ p :: rest = (processed ++ [p]) ++ rest := by simp
    rw [List.foldl_cons, hsplit]
    apply ih (processed ++ [p]) (consolidateStep acc p)
    · -- entry characterization for the stepped accumulator
      intro k e hke
      unfold consolidateStep at hke
      by_cases hmem : (acc.any (fun kv => kv.1 = p.dateStr)) = true
      · rw [if_pos hmem] at hke
        rcases List.mem_map.1 hke with ⟨kv0, hkv0, heq⟩
        obtain ⟨hdk, hex, hcc, q0, tl, hgq, hctx⟩ := h1 kv0.1 kv0.2 hkv0
        by_cases hk : kv0.1 = p.dateStr
        · rw [if_pos hk] at heq
          injection heq with he1 he2
          subst he1
          subst he2
          have hpk : p.dateStr = kv0.1 := hk.symm
          rw [groupOf_append_one, if_pos hpk]
          refine ⟨hdk, ?_, ?_, q0, tl ++ [p], ?_, hctx⟩
          · show some (kv0.2.exchanges.getD 1 + 1) = _
            rw [hex]
            simp
          · show some (kv0.2.combinedContext.getD [] ++ [p.context]) = _
            rw [hcc]
            simp
          · rw [hgq]
            rfl
        · rw [if_neg hk] at heq
          subst heq
          have hpk : ¬ p.dateStr = k := fun h => hk h.symm
          rw [groupOf_append_one, if_neg hpk, List.append_nil]
          exact ⟨hdk, hex, hcc, q0, tl, hgq, hctx⟩
      · rw [if_neg hmem] at hke
        rcases List.mem_append.1 hke with hke | hke
        · obtain ⟨hdk, hex, hcc, q0, tl, hgq, hctx⟩ := h1 k e hke
          have hkne : ¬ p.dateStr = k := by
            intro hcon
            apply hmem
            apply List.any_eq_true.2
            refine ⟨(k, e), hke, ?_⟩
            simpa using hcon.symm
          rw [groupOf_append_one, if_neg hkne, List.append_nil]
          exact ⟨hdk, hex, hcc, q0, tl, hgq, hctx⟩
        · have heq := List.mem_singleton.1 hke
          injection heq with he1 he2
          subst he1
          subst he2
          have hempty : groupOf processed p.dateStr = [] :=
            h2 p.dateStr (Bool.eq_false_iff.2 hmem)
          rw [groupOf_append_one, if_pos rfl, hempty]
          exact ⟨rfl, by simp, by simp, p, [], by simp, rfl⟩
    · -- keys absent from the stepped accumulator still have empty groups
      intro k hk
      unfold consolidateStep at hk
      by_cases hmem : (acc.any (fun kv => kv.1 = p.dateStr)) = true
      · rw [if_pos hmem] at hk
        rw [any_key_update acc p k] at hk
        have hkp : ¬ p.dateStr = k := by
          intro hcon
          rw [hcon] at hmem
          rw [hmem] at hk
          cases hk
        rw [groupOf_append_one, if_neg hkp, List.append_nil]
        exact h2 k hk
      · rw [if_neg hmem] at hk
        rw [List.any_append] at hk
        rcases Bool.or_eq_false_iff.1 hk with ⟨hk1, hk2⟩
        have hkp : ¬ p.dateStr = k := by simpa using hk2
        rw [groupOf_append_one, if_neg hkp, List.append_nil]
        exact h2 k hk1

/-- Transfer of the same-day group's context list from the draft level back
to the `ExtractedDate` inputs (draft construction copies `formatted` into
`dateStr` and `context` into `context`). -/
theorem draft_group_contexts (content : String) (now : JSDate) (k : String) :
    ∀ (dates : List ExtractedDate) (i : Nat),
    ((((withIdx i dates).map (mkDraft content now)).filter
        (fun q => q.dateStr = k)).map (fun q => q.context))
      = (dates.filter (fun d => d.formatted = k)).map (fun d => d.context) := by
  intro dates
  induction dates with
  | nil => intro i; rfl
  | cons d t ih =>
    intro i
    by_cases hd : d.formatted = k
    · simp [withIdx, mkDraft, hd, ih (i + 1)]
    · simp [withIdx, mkDraft, hd, ih (i + 1)]

/-- C6: after a ready consolidation, a record with `exchanges = 1` keeps its
single original context verbatim (no wrapping text), while a record with
`exchanges > 1` carries the synthesized string embedding the count and the
"; "-joined original contexts of its calendar day. -/
theorem consolidate_context_roundtrip (dates : List ExtractedDate) (content : String)
    (now : JSDate) (poc : PointOfContact)
    (hmem : poc ∈ consolidate dates content now true) :
    (poc.exchanges = some 1 →
        ∃ c, (dates.filter (fun d => d.formatted = poc.dateStr)).map (fun d => d.context)
              = [c] ∧ poc.context = c) ∧
    (∀ n, poc.exchanges = some n → 1 < n →
        poc.context = Nat.repr n ++ " exchanges on this day: " ++
          String.intercalate "; "
            ((dates.filter (fun d => d.formatted = poc.dateStr)).map
              (fun d => d.context))) := by
  set pocs := (withIdx 0 dates).map (mkDraft content now) with hpocs
  set table := pocs.foldl consolidateStep [] with htable
  have hout : consolidate dates content now true
      = List.insertionSort (fun a b => a.date.getTime ≤ b.date.getTime)
          ((table.map Prod.snd).map rewriteContext) := by
    simp [consolidate, hpocs, htable]
  rw [hout] at hmem
  have hperm := List.perm_insertionSort
      (fun (a : PointOfContact) b => a.date.getTime ≤ b.date.getTime)
      ((table.map Prod.snd).map rewriteContext)
  have hmem' : poc ∈ (table.map Prod.snd).map rewriteContext := hperm.mem_iff.1 hmem
  rcases List.mem_map.1 hmem' with ⟨e0, he0, rfl⟩
  rcases List.mem_map.1 he0 with ⟨kv, hkv, rfl⟩
  have hgrp := consolidate_fold_group pocs [] []
    (by intro k e h; cases h) (by intro k _; rfl) kv.1 kv.2 (by simpa using hkv)
  obtain ⟨hdk, hex, hcc, q0, tl, hgq, hctx⟩ := hgrp
  rw [List.nil_append] at hex hcc hgq
  have hds : (rewriteContext kv.2).dateStr = kv.1 := hdk
  have hexs : (rewriteContext kv.2).exchanges = kv.2.exchanges := rfl
  have hctxs : ((dates.filter (fun d => d.formatted = kv.1)).map
        (fun d => d.context))
      = (groupOf pocs kv.1).map (fun q => q.context) := by
    rw [← draft_group_contexts content now kv.1 dates 0, hpocs]
    rfl
  constructor
  · intro h1
    rw [hexs, hex] at h1
    have hlen1 : (groupOf pocs kv.1).length = 1 := Option.some_injective _ h1
    rw [hgq] at hlen1
    simp only [List.length_cons, Nat.add_left_eq_self, List.length_eq_zero] at hlen1
    subst hlen1
    refine ⟨q0.context, ?_, ?_⟩
    · rw [hds, hctxs, hgq]
      rfl
    · show (rewriteContext kv.2).context = q0.context
      unfold rewriteContext
      simp only [hex, hgq]
      norm_num
      exact hctx
  · intro n hn hlt
    rw [hexs, hex] at hn
    have hlen : (groupOf pocs kv.1).length = n := Option.some_injective _ hn
    show (rewriteContext kv.2).context = _
    unfold rewriteContext
    simp only [hex, hcc, hlen]
    rw [if_pos hlt, hdk, hctxs]

/-- Witness for `consolidate_context_roundtrip` at a concrete input. -/
theorem consolidate_context_roundtrip_witness :
    ∃ poc, poc ∈ consolidate [(⟨⟨0, 0⟩, "D1", "ctx1", none⟩ : ExtractedDate)]
        "c" ⟨0, 0⟩ true ∧
      ((poc.exchanges = some 1 →
          ∃ c, ([(⟨⟨0, 0⟩, "D1", "ctx1", none⟩ : ExtractedDate)].filter
              (fun d => d.formatted = poc.dateStr)).map (fun d => d.context)
            = [c] ∧ poc.context = c) ∧
        (∀ n, poc.exchanges = some n → 1 < n →
          poc.context = Nat.repr n ++ " exchanges on this day: " ++
            String.intercalate "; "
              (([(⟨⟨0, 0⟩, "D1", "ctx1", none⟩ : ExtractedDate)].filter
                (fun d => d.formatted = poc.dateStr)).map (fun d => d.context)))) :=
  ⟨⟨"0-0", ⟨0, 0⟩, "D1", POCType.email, "ctx1", "c", true, some false,
      some 1, some ["ctx1"]⟩,
   by decide,
   consolidate_context_roundtrip [⟨⟨0, 0⟩, "D1", "ctx1", none⟩] "c" ⟨0, 0⟩
     ⟨"0-0", ⟨0, 0⟩, "D1", POCType.email, "ctx1", "c", true, some false,
       some 1, some ["ctx1"]⟩ (by decide)⟩

/-- C2: with the override absent, `consolidate` always returns exactly one
sentinel record with `type = pending`, the fixed placeholder `dateStr`, and
the raw input text as `content`, whatever the dates list contains. -/
theorem consolidate_pending_sentinel (dates : List ExtractedDate) (content : String)
    (now : JSDate) :
    ∃ p, consolidate dates content now false = [p] ∧
      p.type = POCType.pending ∧ p.dateStr = "Waiting for last date..." ∧
      p.content = content :=
  ⟨_, rfl, rfl, rfl, rfl⟩

end POCConsolidator

/-! ### Email thread detection (`detectEmailThreads` and friends) -/

/-- `EmailMessage` from the thread-detection module. The `from` and `to`
fields are called `fromAddr` and `toAddrs` (both are reserved words in
Lean). Optional fields are `Option`s. -/
structure EmailMessage where
  id : String
  fromAddr : String
  toAddrs : List String
  cc : Option (List String)
  subject : String
  date : JSDate
  content : String
  messageId : Option String
  inReplyTo : Option String
  references : Option (List String)
deriving DecidableEq

/-- `EmailThread`; `participants` models the JavaScript `Set` as an
insertion-ordered duplicate-free list. -/
structure EmailThread where
  id : String
  subject : String
  participants : List String
  messages : List EmailMessage
  startDate : JSDate
  endDate : JSDate
  isActive : Bool
  summary : Option String
deriving DecidableEq

/-- `Set.prototype.add`. -/
def jsSetInsert (l : List String) (x : String) : List String :=
  if x ∈ l then l else l ++ [x]

/-- `new Set(xs)`. -/
def jsSetOfList (xs : List String) : List String :=
  xs.foldl jsSetInsert []

/-- One leading reply/forward prefix strip. The regex alternation
(`RE:`, `FW:`, `Fwd:`, `Re:`, `Fw:`, case-insensitive) collapses to the
three case-folded literals tried in order; the pattern is anchored at the
start, so even with the `g` flag it fires at most once per call. -/
def stripReplyFwd (s : List Char) : List Char :=
  match ciStartsWith "re:".data s with
  | some r => r.dropWhile jsIsSpace
  | none =>
  match ciStartsWith "fw:".data s with
  | some r => r.dropWhile jsIsSpace
  | none =>
  match ciStartsWith "fwd:".data s with
  | some r => r.dropWhile jsIsSpace
  | none => s

/-- Whitespace collapsing (`.replace` of whitespace runs by one space). -/
def collapseWsAux : Bool → List Char → List Char
  | _, [] => []
  | prevSpace, c :: t =>
    if jsIsSpace c then
      if prevSpace then collapseWsAux true t
      else ' ' :: collapseWsAux true t
    else c :: collapseWsAux false t

def collapseWs (cs : List Char) : List Char := collapseWsAux false cs

/-- `normalizeSubject`: strip one reply/forward prefix, collapse
whitespace, trim, case-fold. -/
def normalizeSubject (subject : String) : String :=
  jsToLower (jsTrim (String.mk (collapseWs (stripReplyFwd subject.data))))

/-- `String.prototype.includes`. -/
def strIncludes (a b : String) : Bool :=
  DateExtractor.listIncludes b.data a.data

/-- `calculateSetOverlap`: shared-member count over the larger set's size
(scores over `ℚ`; all the source's float constants and operations stay
exact in `ℚ`). -/
def calculateSetOverlap (s1 s2 : List String) : ℚ :=
  if s1.length = 0 ∨ s2.length = 0 then 0
  else ((s1.filter (fun x => x ∈ s2)).length : ℚ) / (max s1.length s2.length : ℚ)

def wSubject : ℚ := 2/5
def wParticipants : ℚ := 3/10
def wReferences : ℚ := 1/5
def wTiming : ℚ := 1/10

/-- The participant set of a message (`from`, `to` and `cc`). -/
def emailParticipantSet (email : EmailMessage) : List String :=
  jsSetOfList (email.fromAddr :: (email.toAddrs ++ email.cc.getD []))

/-- Subject signal of `calculateThreadMatchScore`: full weight on exact
normalized equality, half weight on substring containment either way. -/
def subjectScore (email : EmailMessage) (thread : EmailThread) : ℚ :=
  let ns := normalizeSubject email.subject
  if ns = thread.subject then wSubject
  else if strIncludes thread.subject ns || strIncludes ns thread.subject then
    wSubject * (1/2)
  else 0

/-- Participant-overlap signal. -/
def participantScore (email : EmailMessage) (thread : EmailThread) : ℚ :=
  wParticipants * calculateSetOverlap (emailParticipantSet email) thread.participants

/-- JavaScript truthiness of an optional string. -/
def jsTruthyStr : Option String → Bool
  | some v => v ≠ ""
  | none => false

/-- Reference/reply-to signal. `filter(Boolean)` drops both missing and
empty message ids. -/
def referenceScore (email : EmailMessage) (thread : EmailThread) : ℚ :=
  if jsTruthyStr email.inReplyTo ∨ (email.references.getD []).length ≠ 0 then
    let threadMessageIds :=
      (thread.messages.filterMap (fun m => m.messageId)).filter (fun v => v ≠ "")
    if (match email.inReplyTo with
        | some r => jsTruthyStr (some r) && threadMessageIds.contains r
        | none => false) then wReferences
    else if (email.references.getD []).any
        (fun ref => threadMessageIds.contains ref) then wReferences * (1/2)
    else 0
  else 0

/-- Timing signal: full weight under one day from the thread's most recent
message, linear decay to zero at seven days; the source returns early when
the thread has no messages, i.e. this signal contributes nothing. -/
def timingScore (email : EmailMessage) (thread : EmailThread) : ℚ :=
  match thread.messages.getLast? with
  | none => 0
  | some last =>
    let daysDiff : ℚ :=
      |((email.date.getTime : ℚ) - (last.date.getTime : ℚ))| / 86400000
    if daysDiff < 1 then wTiming
    else if daysDiff < 7 then wTiming * (1 - daysDiff / 7)
    else 0

/-- `calculateThreadMatchScore`: the source accumulates the four weighted
signals into one `score`; here they are factored into the component
functions above and summed. -/
def calculateThreadMatchScore (email : EmailMessage) (thread : EmailThread) : ℚ :=
  subjectScore email thread + participantScore email thread +
    referenceScore email thread + timingScore email thread

/-- One iteration of the `findBestThreadMatch` loop: adopt this thread when
its score beats 0.7 and the best so far (`score > 0.7 && (!bestMatch ||
score > bestMatch.score)`). -/
def bestStep (email : EmailMessage) (best : Option (String × ℚ))
    (kv : String × EmailThread) : Option (String × ℚ) :=
  let sc := calculateThreadMatchScore email kv.2
  if (7 : ℚ)/10 < sc ∧ best.all (fun b => b.2 < sc) then some (kv.1, sc) else best

/-- `findBestThreadMatch` over the insertion-ordered thread map. -/
def findBestThreadMatch (email : EmailMessage)
    (threads : List (String × EmailThread)) : Option String :=
  (threads.foldl (bestStep email) none).map Prod.fst

/-- `createNewThread`. `generateThreadId` draws on the clock and
`Math.random` purely for uniqueness; the id is supplied explicitly. -/
def createNewThread (tid : String) (email : EmailMessage) : EmailThread :=
  { id := tid
    subject := normalizeSubject email.subject
    participants := jsSetOfList (email.fromAddr :: (email.toAddrs ++ email.cc.getD []))
    messages := [email]
    startDate := email.date
    endDate := email.date
    isActive := true
    summary := none }

/-- `addEmailToThread` (the in-place mutation returned as a new record). -/
def addEmailToThread (thread : EmailThread) (email : EmailMessage) : EmailThread :=
  let ps := jsSetInsert thread.participants email.fromAddr
  let ps := email.toAddrs.foldl jsSetInsert ps
  let ps := (email.cc.getD []).foldl jsSetInsert ps
  { thread with
    messages := thread.messages ++ [email]
    participants := ps
    startDate := if email.date.getTime < thread.startDate.getTime then email.date
                 else thread.startDate
    endDate := if thread.endDate.getTime < email.date.getTime then email.date
               else thread.endDate }

/-- `isThreadActive`: most recent message within a 30-day window of `now`
(`Date.now()` is passed explicitly). -/
def isThreadActive (now : JSDate) (thread : EmailThread) : Bool :=
  ((now.getTime : ℚ) - (thread.endDate.getTime : ℚ)) / 86400000 < 30

/-- Count of the non-overlapping, leftmost matches of an alternation of
case-insensitive literal words (a global regex `match(...).length`). The
fuel bounds iterations; every alternative is non-empty so it suffices. -/
def countAltMatches (alts : List (List Char)) : Nat → List Char → Nat
  | 0, _ => 0
  | Nat.succ fuel, s =>
    match DateExtractor.firstSome alts (fun a => ciStartsWith a s) with
    | some rest => 1 + countAltMatches alts fuel rest
    | none =>
      match s with
      | [] => 0
      | _ :: t => countAltMatches alts fuel t

def countMatches (alts : List (List Char)) (s : List Char) : Nat :=
  countAltMatches alts (s.length + 1) s

/-- The fixed keyword-category dictionary of `extractKeyTopics`. -/
def topicPatterns : List (List (List Char) × String) :=
  [(["meeting".data, "appointment".data, "schedule".data], "scheduling"),
   (["accommodation".data, "disability".data, "support".data], "accommodations"),
   (["exam".data, "test".data, "quiz".data, "assignment".data], "assessments"),
   (["deadline".data, "extension".data, "due date".data], "deadlines"),
   (["grade".data, "mark".data, "score".data, "feedback".data], "grades"),
   (["course".data, "class".data, "lecture".data, "tutorial".data], "courses"),
   (["registration".data, "enroll".data, "drop".data, "add".data], "registration"),
   (["stress".data, "anxiety".data, "mental health".data, "wellness".data],
     "mental health")]

/-- `Map.set(topic, (get(topic) || 0) + n)` on an insertion-ordered map. -/
def mapAddCount (m : List (String × Nat)) (k : String) (n : Nat) :
    List (String × Nat) :=
  if m.any (fun kv => kv.1 = k) then
    m.map (fun kv => if kv.1 = k then (kv.1, kv.2 + n) else kv)
  else m ++ [(k, n)]

/-- `extractKeyTopics`: count keyword hits per topic over subject plus
content, then sort topics by descending frequency (stable, as the
JavaScript sort). -/
def extractKeyTopics (messages : List EmailMessage) : List String :=
  let counts := messages.foldl (fun (counts : List (String × Nat)) message =>
    let combinedText := (message.subject ++ " " ++ message.content).data
    topicPatterns.foldl (fun counts2 tp =>
      let n := countMatches tp.1 combinedText
      if n ≠ 0 then mapAddCount counts2 tp.2 n else counts2) counts) []
  (List.insertionSort (fun a b => b.2 ≤ a.2) counts).map Prod.fst

/-- `generateThreadSummary`. -/
def generateThreadSummary (thread : EmailThread) : String :=
  let messageCount := thread.messages.length
  let duration :=
    (((thread.endDate.getTime : ℚ) - (thread.startDate.getTime : ℚ))
      / 86400000).ceil
  let topics := extractKeyTopics thread.messages
  let summary := "Thread with " ++ Nat.repr messageCount ++ " messages over " ++
    toString duration ++ " day" ++ (if duration ≠ 1 then "s" else "") ++ "."
  if 0 < topics.length then
    summary ++ " Key topics: " ++ String.intercalate ", " (topics.take 3) ++ "."
  else summary

/-- `detectEmailThreads`: sort ascending by date (stable), place each
message into its best-matching thread or a fresh one, then compute the
derived `isActive` and `summary` fields. Thread ids come from a
deterministic supply modelling `generateThreadId`'s unique ids, and `now`
models the clock read of `isThreadActive`. -/
def detectEmailThreads (now : JSDate) (emails : List EmailMessage) :
    List EmailThread :=
  let sortedEmails :=
    List.insertionSort (fun a b => a.date.getTime ≤ b.date.getTime) emails
  let threads := sortedEmails.foldl
    (fun (threads : List (String × EmailThread)) email =>
      match findBestThreadMatch email threads with
      | some threadKey =>
        threads.map (fun kv =>
          if kv.1 = threadKey then (kv.1, addEmailToThread kv.2 email) else kv)
      | none =>
        let newThread := createNewThread ("thread_" ++ Nat.repr threads.length) email
        threads ++ [(newThread.id, newThread)]) []
  (threads.map Prod.snd).map (fun thread =>
    { thread with
      isActive := isThreadActive now thread
      summary := some (generateThreadSummary thread) })

/-- `mergeThreads` (the in-place merge returned as a new record). -/
def mergeThreads (target source : EmailThread) : EmailThread :=
  { target with
    messages := List.insertionSort (fun a b => a.date.getTime ≤ b.date.getTime)
      (target.messages ++ source.messages)
    participants := source.participants.foldl jsSetInsert target.participants
    startDate := if source.startDate.getTime < target.startDate.getTime
                 then source.startDate else target.startDate
    endDate := if target.endDate.getTime < source.endDate.getTime
               then source.endDate else target.endDate
    isActive := target.isActive || source.isActive }

/-- Abbreviation for the score of a keyed thread. -/
def scoreOf (email : EmailMessage) (kv : String × EmailThread) : ℚ :=
  calculateThreadMatchScore email kv.2

theorem bestStep_pos (email : EmailMessage) (b : Option (String × ℚ))
    (kv : String × EmailThread)
    (h : (7 : ℚ)/10 < calculateThreadMatchScore email kv.2 ∧
      (b.all fun bb => bb.2 < calculateThreadMatchScore email kv.2)) :
    bestStep email b kv = some (kv.1, calculateThreadMatchScore email kv.2) := by
  simp only [bestStep]
  rw [if_pos h]

theorem bestStep_neg (email : EmailMessage) (b : Option (String × ℚ))
    (kv : String × EmailThread)
    (h : ¬ ((7 : ℚ)/10 < calculateThreadMatchScore email kv.2 ∧
      (b.all fun bb => bb.2 < calculateThreadMatchScore email kv.2))) :
    bestStep email b kv = b := by
  simp only [bestStep]
  rw [if_neg h]

/-- Complete characterization of the `findBestThreadMatch` fold: a `none`
result means every candidate scored at or below 0.7; a `some` result names
either the starting accumulator (unbeaten) or the first thread attaining
the winning score — earlier threads score strictly less, later ones at
most equal. -/
theorem bestFold_spec (email : EmailMessage) (ts : List (String × EmailThread)) :
    ∀ b : Option (String × ℚ),
    (∀ p, b = some p → (7 : ℚ)/10 < p.2) →
    (ts.foldl (bestStep email) b = none →
        b = none ∧ ∀ kv ∈ ts, scoreOf email kv ≤ 7/10) ∧
    (∀ tid sc, ts.foldl (bestStep email) b = some (tid, sc) →
        (b = some (tid, sc) ∧ ∀ kv ∈ ts,
            scoreOf email kv ≤ 7/10 ∨ scoreOf email kv ≤ sc) ∨
        (∃ pre t post, ts = pre ++ (tid, t) :: post ∧
            calculateThreadMatchScore email t = sc ∧ (7 : ℚ)/10 < sc ∧
            (∀ kv ∈ pre, scoreOf email kv ≤ 7/10 ∨ scoreOf email kv < sc) ∧
            (∀ kv ∈ post, scoreOf email kv ≤ 7/10 ∨ scoreOf email kv ≤ sc) ∧
            (∀ p, b = some p → p.2 < sc))) := by
  induction ts with
  | nil =>
    intro b hb
    constructor
    · intro h
      exact ⟨h, by intro kv hkv; cases hkv⟩
    · intro tid sc h
      exact Or.inl ⟨h, by intro kv hkv; cases hkv⟩
  | cons hd rest ih =>
    intro b hb
    have hfold : (hd :: rest).foldl (bestStep email) b
        = rest.foldl (bestStep email) (bestStep email b hd) := rfl
    by_cases hsel : ((7 : ℚ)/10 < calculateThreadMatchScore email hd.2 ∧
        (b.all fun bb => bb.2 < calculateThreadMatchScore email hd.2))
    · -- this thread is adopted as the new best
      have hbs := bestStep_pos email b hd hsel
      have hb2 : ∀ p, bestStep email b hd = some p → (7 : ℚ)/10 < p.2 := by
        intro p hp
        rw [hbs] at hp
        cases hp
        exact hsel.1
      obtain ⟨ihn, ihs⟩ := ih (bestStep email b hd) hb2
      constructor
      · intro h
        rw [hfold] at h
        obtain ⟨hnone, _⟩ := ihn h
        rw [hbs] at hnone
        cases hnone
      · intro tid sc h
        rw [hfold] at h
        rcases ihs tid sc h with ⟨hA, hrest⟩ | ⟨pre, t, post, hdec, hsc, hgt, hpre, hpost, hbc⟩
        · -- the head stayed best through the rest
          rw [hbs] at hA
          have h1 : (hd.1, calculateThreadMatchScore email hd.2) = (tid, sc) :=
            Option.some_injective _ hA
          have h2 : hd.1 = tid := congrArg Prod.fst h1
          have h3 : calculateThreadMatchScore email hd.2 = sc := congrArg Prod.snd h1
          refine Or.inr ⟨[], hd.2, rest, ?_, h3, h3 ▸ hsel.1, ?_, hrest, ?_⟩
          · rw [List.nil_append, ← h2]
          · intro kv hkv; cases hkv
          · intro p hp
            have := hsel.2
            rw [hp] at this
            simpa [h3] using this
        · -- a later thread overtook the head
          have hhd : scoreOf email hd ≤ 7/10 ∨ scoreOf email hd < sc := by
            right
            have := hbc (hd.1, calculateThreadMatchScore email hd.2) hbs
            simpa [scoreOf] using this
          refine Or.inr ⟨hd :: pre, t, post, by rw [hdec]; simp, hsc, hgt, ?_, hpost, ?_⟩
          · intro kv hkv
            rcases List.mem_cons.1 hkv with rfl | hkv
            · exact hhd
            · exact hpre kv hkv
          · intro p hp
            have h1 := hsel.2
            rw [hp] at h1
            have h2 : p.2 < calculateThreadMatchScore email hd.2 := by simpa using h1
            have h3 := hbc (hd.1, calculateThreadMatchScore email hd.2) hbs
            exact lt_trans h2 h3
    · -- this thread is skipped
      have hbs := bestStep_neg email b hd hsel
      have hb2 : ∀ p, bestStep email b hd = some p → (7 : ℚ)/10 < p.2 := by
        intro p hp
        rw [hbs] at hp
        exact hb p hp
      obtain ⟨ihn, ihs⟩ := ih (bestStep email b hd) hb2
      have hhdbound : ∀ q : String × ℚ, b = some q →
          scoreOf email hd ≤ 7/10 ∨ scoreOf email hd ≤ q.2 := by
        intro q hq
        subst hq
        by_cases h7 : (7 : ℚ)/10 < calculateThreadMatchScore email hd.2
        · right
          by_contra hcon
          push_neg at hcon
          apply hsel
          refine ⟨h7, ?_⟩
          simp only [Option.all_some, decide_eq_true_eq]
          exact hcon
        · left
          exact le_of_not_lt h7
      constructor
      · intro h
        rw [hfold] at h
        obtain ⟨hnone, hbound⟩ := ihn h
        rw [hbs] at hnone
        subst hnone
        refine ⟨rfl, ?_⟩
        intro kv hkv
        rcases List.mem_cons.1 hkv with rfl | hkv
        · by_cases h7 : (7 : ℚ)/10 < calculateThreadMatchScore email kv.2
          · exfalso
            apply hsel
            exact ⟨h7, by simp⟩
          · exact le_of_not_lt h7
        · exact hbound kv hkv
      · intro tid sc h
        rw [hfold] at h
        rcases ihs tid sc h with ⟨hA, hrest⟩ | ⟨pre, t, post, hdec, hsc, hgt, hpre, hpost, hbc⟩
        · rw [hbs] at hA
          left
          refine ⟨hA, ?_⟩
          intro kv hkv
          rcases List.mem_cons.1 hkv with rfl | hkv
          · exact hhdbound (tid, sc) hA
          · exact hrest kv hkv
        · right
          have hbc2 : ∀ p, b = some p → p.2 < sc := by
            intro p hp
            apply hbc
            rw [hbs]
            exact hp
          refine ⟨hd :: pre, t, post, by rw [hdec]; simp, hsc, hgt, ?_, hpost, hbc2⟩
          intro kv hkv
          rcases List.mem_cons.1 hkv with rfl | hkv
          · cases hbioc : b with
            | none =>
              left
              by_contra h7
              apply hsel
              rw [hbioc]
              exact ⟨lt_of_not_le (fun hle => h7 hle), by simp⟩
            | some q =>
              rcases hhdbound q hbioc with hle | hle
              · exact Or.inl hle
              · exact Or.inr (lt_of_le_of_lt hle (hbc2 q hbioc))
          · exact hpre kv hkv

/-- C4 (amended): a message joins a thread only when its score strictly
exceeds 0.7 — but on a tie for the highest such score the message joins
the earliest-created tied thread, not a new singleton; a new thread arises
only when no existing thread's score exceeds 0.7. -/
theorem findBestThreadMatch_spec (email : EmailMessage)
    (threads : List (String × EmailThread)) :
    (findBestThreadMatch email threads = none →
      ∀ kv ∈ threads, calculateThreadMatchScore email kv.2 ≤ 7/10) ∧
    (∀ tid, findBestThreadMatch email threads = some tid →
      ∃ pre t post, threads = pre ++ (tid, t) :: post ∧
        (7 : ℚ)/10 < calculateThreadMatchScore email t ∧
        (∀ kv ∈ pre, calculateThreadMatchScore email kv.2
            < calculateThreadMatchScore email t) ∧
        (∀ kv ∈ post, calculateThreadMatchScore email kv.2
            ≤ calculateThreadMatchScore email t)) := by
  obtain ⟨hn, hs⟩ := bestFold_spec email threads none (by intro p hp; cases hp)
  constructor
  · intro h kv hkv
    unfold findBestThreadMatch at h
    rcases Option.map_eq_none'.1 h with hff
    exact (hn hff).2 kv hkv
  · intro tid h
    unfold findBestThreadMatch at h
    rcases Option.map_eq_some'.1 h with ⟨⟨tid2, sc⟩, hff, hteq⟩
    rcases hs tid2 sc hff with ⟨hA, _⟩ | ⟨pre, t, post, hdec, hsc, hgt, hpre, hpost, _⟩
    · cases hA
    · cases hteq
      refine ⟨pre, t, post, hdec, hsc ▸ hgt, ?_, ?_⟩
      · intro kv hkv
        rcases hpre kv hkv with hle | hlt
        · rw [hsc]
          exact lt_of_le_of_lt hle hgt
        · rw [hsc]
          exact hlt
      · intro kv hkv
        rcases hpost kv hkv with hle | hle
        · rw [hsc]
          exact le_trans hle (le_of_lt hgt)
        · rw [hsc]
          exact hle

def tieMsg1 : EmailMessage :=
  ⟨"e1", "a", [], none, "xx", ⟨0, 0⟩, "", some "m", none, none⟩

def tieMsg2 : EmailMessage :=
  ⟨"e2", "b", [], none, "xx", ⟨30, 0⟩, "", some "m", none, none⟩

def tieMsg3 : EmailMessage :=
  ⟨"e3", "a", ["b"], none, "xx", ⟨38, 0⟩, "", none, some "m", none⟩

/-- C4 counterexample: with two existing threads tied at score 3/4 (above
0.7), the third message joins the first thread instead of starting a new
singleton — `detectEmailThreads` returns 2 threads, with the tied message
in the first, not the 3 threads the claim predicts. -/
theorem thread_tie_joins_first :
    calculateThreadMatchScore tieMsg3 (createNewThread "thread_0" tieMsg1) = 3/4 ∧
    calculateThreadMatchScore tieMsg3 (createNewThread "thread_1" tieMsg2) = 3/4 ∧
    ((7 : ℚ)/10 < 3/4) ∧
    (detectEmailThreads ⟨40, 0⟩ [tieMsg1, tieMsg2, tieMsg3]).length = 2 ∧
    (detectEmailThreads ⟨40, 0⟩ [tieMsg1, tieMsg2, tieMsg3]).map
      (fun t => t.messages.length) = [2, 1] := by
  refine ⟨?_, ?_, ?_, ?_, ?_⟩ <;> decide

/-- Witness for `findBestThreadMatch_spec` at a concrete input. -/
theorem findBestThreadMatch_spec_witness :
    ∃ pre t post,
      [("thread_0", createNewThread "thread_0" tieMsg1)]
        = pre ++ ("thread_0", t) :: post ∧
      (7 : ℚ)/10 < calculateThreadMatchScore tieMsg3 t ∧
      (∀ kv ∈ pre, calculateThreadMatchScore tieMsg3 kv.2
          < calculateThreadMatchScore tieMsg3 t) ∧
      (∀ kv ∈ post, calculateThreadMatchScore tieMsg3 kv.2
          ≤ calculateThreadMatchScore tieMsg3 t) :=
  (findBestThreadMatch_spec tieMsg3
      [("thread_0", createNewThread "thread_0" tieMsg1)]).2
    "thread_0" (by decide)

/-! ### C7: score bounds and subject monotonicity -/

theorem calculateSetOverlap_nonneg (s1 s2 : List String) :
    0 ≤ calculateSetOverlap s1 s2 := by
  unfold calculateSetOverlap
  split
  · exact le_refl 0
  · positivity

theorem calculateSetOverlap_le_one (s1 s2 : List String) :
    calculateSetOverlap s1 s2 ≤ 1 := by
  unfold calculateSetOverlap
  split
  · norm_num
  · rename_i h
    push_neg at h
    have h1 : (s1.filter (fun x => x ∈ s2)).length ≤ s1.length :=
      List.length_filter_le _ _
    have h2 : s1.length ≤ max s1.length s2.length := le_max_left _ _
    apply div_le_one_of_le
    · exact_mod_cast le_trans h1 h2
    · positivity

theorem subjectScore_nonneg (email : EmailMessage) (thread : EmailThread) :
    0 ≤ subjectScore email thread := by
  simp only [subjectScore]
  repeat' split
  all_goals norm_num [wSubject]

theorem subjectScore_le (email : EmailMessage) (thread : EmailThread) :
    subjectScore email thread ≤ wSubject := by
  simp only [subjectScore]
  repeat' split
  all_goals norm_num [wSubject]

theorem participantScore_nonneg (email : EmailMessage) (thread : EmailThread) :
    0 ≤ participantScore email thread := by
  unfold participantScore
  have := calculateSetOverlap_nonneg (emailParticipantSet email) thread.participants
  have hw : (0 : ℚ) ≤ wParticipants := by norm_num [wParticipants]
  exact mul_nonneg hw this

theorem participantScore_le (email : EmailMessage) (thread : EmailThread) :
    participantScore email thread ≤ wParticipants := by
  unfold participantScore
  have h1 := calculateSetOverlap_le_one (emailParticipantSet email) thread.participants
  have hw : (0 : ℚ) ≤ wParticipants := by norm_num [wParticipants]
  calc wParticipants * calculateSetOverlap (emailParticipantSet email) thread.participants
      ≤ wParticipants * 1 := mul_le_mul_of_nonneg_left h1 hw
    _ = wParticipants := mul_one _

theorem referenceScore_nonneg (email : EmailMessage) (thread : EmailThread) :
    0 ≤ referenceScore email thread := by
  simp only [referenceScore]
  repeat' split
  all_goals norm_num [wReferences]

theorem referenceScore_le (email : EmailMessage) (thread : EmailThread) :
    referenceScore email thread ≤ wReferences := by
  simp only [referenceScore]
  repeat' split
  all_goals norm_num [wReferences]

theorem timingScore_nonneg (email : EmailMessage) (thread : EmailThread) :
    0 ≤ timingScore email thread := by
  simp only [timingScore]
  split
  · exact le_refl 0
  · rename_i last _
    have hd : (0 : ℚ) ≤
        |((email.date.getTime : ℚ) - (last.date.getTime : ℚ))| / 86400000 := by
      positivity
    split
    · norm_num [wTiming]
    · split
      · rename_i h1 h2
        push_neg at h1
        have h3 : |((email.date.getTime : ℚ) - (last.date.getTime : ℚ))|
            / 86400000 / 7 < 1 := by
          rw [div_lt_one (by norm_num : (0:ℚ) < 7)]
          linarith
        have hw : (0 : ℚ) ≤ wTiming := by norm_num [wTiming]
        apply mul_nonneg hw
        linarith
      · exact le_refl 0

theorem timingScore_le (email : EmailMessage) (thread : EmailThread) :
    timingScore email thread ≤ wTiming := by
  simp only [timingScore]
  split
  · norm_num [wTiming]
  · rename_i last _
    have hd : (0 : ℚ) ≤
        |((email.date.getTime : ℚ) - (last.date.getTime : ℚ))| / 86400000 := by
      positivity
    split
    · exact le_refl _
    · split
      · have hw : (0 : ℚ) ≤ wTiming := by norm_num [wTiming]
        have h4 : (0 : ℚ) ≤ |((email.date.getTime : ℚ) - (last.date.getTime : ℚ))|
            / 86400000 / 7 := by positivity
        calc wTiming * (1 - |((email.date.getTime : ℚ) - (last.date.getTime : ℚ))|
              / 86400000 / 7)
            ≤ wTiming * 1 := mul_le_mul_of_nonneg_left (by linarith) hw
          _ = wTiming := mul_one _
      · norm_num [wTiming]

/-- C7: the match score is always within [0, 1], and on a pair whose
normalized subjects match exactly, replacing the two subjects by anything
else can only lower (or keep) the score — the other three signals read no
subject. -/
theorem score_bounds_and_subject_monotone (email : EmailMessage)
    (thread : EmailThread) :
    (0 ≤ calculateThreadMatchScore email thread ∧
      calculateThreadMatchScore email thread ≤ 1) ∧
    (∀ s1 s2, normalizeSubject email.subject = thread.subject →
      calculateThreadMatchScore { email with subject := s1 }
          { thread with subject := s2 }
        ≤ calculateThreadMatchScore email thread) := by
  constructor
  · constructor
    · unfold calculateThreadMatchScore
      have h1 := subjectScore_nonneg email thread
      have h2 := participantScore_nonneg email thread
      have h3 := referenceScore_nonneg email thread
      have h4 := timingScore_nonneg email thread
      linarith
    · unfold calculateThreadMatchScore
      have h1 := subjectScore_le email thread
      have h2 := participantScore_le email thread
      have h3 := referenceScore_le email thread
      have h4 := timingScore_le email thread
      have h5 : wSubject + wParticipants + wReferences + wTiming = 1 := by
        norm_num [wSubject, wParticipants, wReferences, wTiming]
      linarith
  · intro s1 s2 hexact
    have hsub : subjectScore email thread = wSubject := by
      simp only [subjectScore]
      rw [if_pos hexact]
    have hpe : participantScore { email with subject := s1 }
        { thread with subject := s2 } = participantScore email thread := rfl
    have hre : referenceScore { email with subject := s1 }
        { thread with subject := s2 } = referenceScore email thread := rfl
    have hte : timingScore { email with subject := s1 }
        { thread with subject := s2 } = timingScore email thread := rfl
    unfold calculateThreadMatchScore
    rw [hpe, hre, hte, hsub]
    have h6 := subjectScore_le { email with subject := s1 }
      { thread with subject := s2 }
    linarith

def monoMsg : EmailMessage :=
  ⟨"w1", "a", [], none, "Sub", ⟨0, 0⟩, "", none, none, none⟩

/-- Witness for `score_bounds_and_subject_monotone` at a concrete input
(the bounds part is hypothesis-free; the monotonicity part is applied at a
pair with an exact subject match). -/
theorem score_bounds_and_subject_monotone_witness :
    calculateThreadMatchScore { monoMsg with subject := "other" }
        { (createNewThread "t0" monoMsg) with subject := "zzz" }
      ≤ calculateThreadMatchScore monoMsg (createNewThread "t0" monoMsg) :=
  (score_bounds_and_subject_monotone monoMsg (createNewThread "t0" monoMsg)).2
    "other" "zzz" (by decide)

/-! ### C8: thread construction invariants -/

theorem mem_jsSetInsert_self (l : List String) (y : String) :
    y ∈ jsSetInsert l y := by
  unfold jsSetInsert
  split
  · assumption
  · simp

theorem mem_jsSetInsert_of_mem (l : List String) (y x : String) (h : x ∈ l) :
    x ∈ jsSetInsert l y := by
  unfold jsSetInsert
  split
  · exact h
  · exact List.mem_append_left _ h

theorem mem_foldl_jsSetInsert_of_mem (xs : List String) :
    ∀ (acc : List String) (x : String), x ∈ acc → x ∈ xs.foldl jsSetInsert acc := by
  induction xs with
  | nil => intro acc x h; exact h
  | cons hd tl ih =>
    intro acc x h
    exact ih (jsSetInsert acc hd) x (mem_jsSetInsert_of_mem acc hd x h)

theorem mem_foldl_jsSetInsert_self (xs : List String) :
    ∀ (acc : List String) (x : String), x ∈ xs → x ∈ xs.foldl jsSetInsert acc := by
  induction xs with
  | nil => intro acc x h; cases h
  | cons hd tl ih =>
    intro acc x h
    rcases List.mem_cons.1 h with rfl | h
    · exact mem_foldl_jsSetInsert_of_mem tl (jsSetInsert acc x) x
        (mem_jsSetInsert_self acc x)
    · exact ih (jsSetInsert acc hd) x h

theorem mem_jsSetOfList (xs : List String) (x : String) (h : x ∈ xs) :
    x ∈ jsSetOfList xs :=
  mem_foldl_jsSetInsert_self xs [] x h

/-- The C8 invariant: the thread's date bounds cover every member message
and its participant set covers every member's `from`, `to` and `cc`
addresses. Dates are compared by their timestamps, as JavaScript does. -/
def ThreadInv (t : EmailThread) : Prop :=
  (∀ m ∈ t.messages,
    t.startDate.getTime ≤ m.date.getTime ∧ m.date.getTime ≤ t.endDate.getTime) ∧
  (∀ m ∈ t.messages,
    m.fromAddr ∈ t.participants ∧ (∀ a ∈ m.toAddrs, a ∈ t.participants) ∧
      (∀ a ∈ m.cc.getD [], a ∈ t.participants))

/-- C8: thread creation establishes the invariant, and adding a message or
merging two threads preserves it. -/
theorem thread_operations_invariant (tid : String) (e : EmailMessage)
    (t t1 t2 : EmailThread) :
    ThreadInv (createNewThread tid e) ∧
    (ThreadInv t → ThreadInv (addEmailToThread t e)) ∧
    (ThreadInv t1 → ThreadInv t2 → ThreadInv (mergeThreads t1 t2)) := by
  refine ⟨⟨?_, ?_⟩, ?_, ?_⟩
  · intro m hm
    rcases List.mem_singleton.1 hm with rfl
    exact ⟨le_refl _, le_refl _⟩
  · intro m hm
    rcases List.mem_singleton.1 hm with rfl
    refine ⟨mem_jsSetOfList _ _ (List.mem_cons_self _ _), ?_, ?_⟩
    · intro a ha
      exact mem_jsSetOfList _ _
        (List.mem_cons_of_mem _ (List.mem_append_left _ ha))
    · intro a ha
      exact mem_jsSetOfList _ _
        (List.mem_cons_of_mem _ (List.mem_append_right _ ha))
  · rintro ⟨hdates, hparts⟩
    constructor
    · intro m hm
      rcases List.mem_append.1 hm with hm | hm
      · obtain ⟨hl, hr⟩ := hdates m hm
        constructor
        · show (if e.date.getTime < t.startDate.getTime then e.date
              else t.startDate).getTime ≤ m.date.getTime
          split
          · rename_i hlt
            exact le_trans (le_of_lt hlt) hl
          · exact hl
        · show m.date.getTime ≤ (if t.endDate.getTime < e.date.getTime then e.date
              else t.endDate).getTime
          split
          · rename_i hlt
            exact le_trans hr (le_of_lt hlt)
          · exact hr
      · rcases List.mem_singleton.1 hm with rfl
        constructor
        · show (if m.date.getTime < t.startDate.getTime then m.date
              else t.startDate).getTime ≤ m.date.getTime
          split
          · exact le_refl _
          · rename_i hlt
            exact le_of_not_lt hlt
        · show m.date.getTime ≤ (if t.endDate.getTime < m.date.getTime then m.date
              else t.endDate).getTime
          split
          · exact le_refl _
          · rename_i hlt
            exact le_of_not_lt hlt
    · intro m hm
      rcases List.mem_append.1 hm with hm | hm
      · obtain ⟨h1, h2, h3⟩ := hparts m hm
        refine ⟨?_, ?_, ?_⟩
        · exact mem_foldl_jsSetInsert_of_mem _ _ _
            (mem_foldl_jsSetInsert_of_mem _ _ _ (mem_jsSetInsert_of_mem _ _ _ h1))
        · intro a ha
          exact mem_foldl_jsSetInsert_of_mem _ _ _
            (mem_foldl_jsSetInsert_of_mem _ _ _
              (mem_jsSetInsert_of_mem _ _ _ (h2 a ha)))
        · intro a ha
          exact mem_foldl_jsSetInsert_of_mem _ _ _
            (mem_foldl_jsSetInsert_of_mem _ _ _
              (mem_jsSetInsert_of_mem _ _ _ (h3 a ha)))
      · rcases List.mem_singleton.1 hm with rfl
        refine ⟨?_, ?_, ?_⟩
        · exact mem_foldl_jsSetInsert_of_mem _ _ _
            (mem_foldl_jsSetInsert_of_mem _ _ _ (mem_jsSetInsert_self _ _))
        · intro a ha
          exact mem_foldl_jsSetInsert_of_mem _ _ _
            (mem_foldl_jsSetInsert_self _ _ _ ha)
        · intro a ha
          exact mem_foldl_jsSetInsert_self _ _ _ ha
  · rintro ⟨hdates1, hparts1⟩ ⟨hdates2, hparts2⟩
    have hperm := List.perm_insertionSort
      (fun (a : EmailMessage) b => a.date.getTime ≤ b.date.getTime)
      (t1.messages ++ t2.messages)
    constructor
    · intro m hm
      have hm2 : m ∈ t1.messages ++ t2.messages := hperm.mem_iff.1 hm
      rcases List.mem_append.1 hm2 with hm2 | hm2
      · obtain ⟨hl, hr⟩ := hdates1 m hm2
        constructor
        · show (if t2.startDate.getTime < t1.startDate.getTime then t2.startDate
              else t1.startDate).getTime ≤ m.date.getTime
          split
          · rename_i hlt
            exact le_trans (le_of_lt hlt) hl
          · exact hl
        · show m.date.getTime ≤ (if t1.endDate.getTime < t2.endDate.getTime
              then t2.endDate else t1.endDate).getTime
          split
          · rename_i hlt
            exact le_trans hr (le_of_lt hlt)
          · exact hr
      · obtain ⟨hl, hr⟩ := hdates2 m hm2
        constructor
        · show (if t2.startDate.getTime < t1.startDate.getTime then t2.startDate
              else t1.startDate).getTime ≤ m.date.getTime
          split
          · exact hl
          · rename_i hlt
            exact le_trans (le_of_not_lt hlt) hl
        · show m.date.getTime ≤ (if t1.endDate.getTime < t2.endDate.getTime
              then t2.endDate else t1.endDate).getTime
          split
          · exact hr
          · rename_i hlt
            exact le_trans hr (le_of_not_lt hlt)
    · intro m hm
      have hm2 : m ∈ t1.messages ++ t2.messages := hperm.mem_iff.1 hm
      rcases List.mem_append.1 hm2 with hm2 | hm2
      · obtain ⟨h1, h2, h3⟩ := hparts1 m hm2
        refine ⟨mem_foldl_jsSetInsert_of_mem _ _ _ h1, ?_, ?_⟩
        · intro a ha
          exact mem_foldl_jsSetInsert_of_mem _ _ _ (h2 a ha)
        · intro a ha
          exact mem_foldl_jsSetInsert_of_mem _ _ _ (h3 a ha)
      · obtain ⟨h1, h2, h3⟩ := hparts2 m hm2
        refine ⟨mem_foldl_jsSetInsert_self _ _ _ h1, ?_, ?_⟩
        · intro a ha
          exact mem_foldl_jsSetInsert_self _ _ _ (h2 a ha)
        · intro a ha
          exact mem_foldl_jsSetInsert_self _ _ _ (h3 a ha)

instance (t : EmailThread) : Decidable (ThreadInv t) := by
  unfold ThreadInv
  exact instDecidableAnd

/-- Witness for `thread_operations_invariant` at a concrete input,
discharging the invariant hypotheses by evaluation. -/
theorem thread_operations_invariant_witness :
    ThreadInv (addEmailToThread (createNewThread "t0" monoMsg) monoMsg) ∧
    ThreadInv (mergeThreads (createNewThread "t0" monoMsg)
      (createNewThread "t1" monoMsg)) :=
  ⟨(thread_operations_invariant "t0" monoMsg (createNewThread "t0" monoMsg)
      (createNewThread "t0" monoMsg) (createNewThread "t1" monoMsg)).2.1
    (by decide),
   (thread_operations_invariant "t0" monoMsg (createNewThread "t0" monoMsg)
      (createNewThread "t0" monoMsg) (createNewThread "t1" monoMsg)).2.2
    (by decide) (by decide)⟩

/-- C10: the override entry bypasses the header deduplication set, so an
override equal to a header date yields two entries with identical
`formatted` strings, and consolidation reports `exchanges = 2` for that
calendar day. -/
theorem override_not_deduplicated :
    (DateExtractor.extractDates ⟨20104, 0⟩
        "Sent: January 6, 2025\n[Last date in response: January 6, 2025]").map
      (fun d => d.formatted) = ["January 6, 2025", "January 6, 2025"] ∧
    (DateExtractor.extractDates ⟨20104, 0⟩
        "Sent: January 6, 2025\n[Last date in response: January 6, 2025]").map
      (fun d => d.isLastDate) = [some true, none] ∧
    ∃ p ∈ POCConsolidator.consolidate
        (DateExtractor.extractDates ⟨20104, 0⟩
          "Sent: January 6, 2025\n[Last date in response: January 6, 2025]")
        "Sent: January 6, 2025\n[Last date in response: January 6, 2025]"
        ⟨20104, 0⟩ true,
      p.dateStr = "January 6, 2025" ∧ p.exchanges = some 2 := by
  refine ⟨?_, ?_, ?_⟩ <;> decide
